import Mathlib

/-!
# NDLArSummaryH5DatasetReader

A shallow embedding of `src/reco/NDLArSummaryH5DatasetReader.cxx`: the chunk-aware
column and grid reads (`ColumnValues`, `GridValues`), the event row index
(`EventRowMap`, `Events`, `EventRowEdges`) and the column lookup
(`ProductFirstColumn`).

Conventions of the embedding.

* `std::size_t` and `hsize_t` are natural numbers with every operation reduced modulo
  `2 ^ 64`; `int` is an integer, and the conversions between the two are explicit
  (`toInt32`, `toSize`).
* Table cells are values of an arbitrary type `α`: the reader only copies them.  The
  value a freshly built `std::vector<float>` holds is the parameter `zero`, and the
  conversion from a cell to the `std::size_t` stored in the event row map is the
  parameter `conv`.
* A call either returns (`Outcome.ok`) or ends in a `Fault`.
* Loops whose trip count the source does not bound take a `fuel` argument.
-/

set_option autoImplicit false

namespace cafmaker

/-! ## Outcomes -/

/-- Ways in which a call ends without returning a value. -/
inductive Fault where
  /-- The store rejected a read (an HDF5 exception): a hyperslab that leaves the table
  extent, or a memory dataspace whose selection does not fit the read. -/
  | storeRead
  /-- A read would store elements past the end of the destination storage. -/
  | overrun
  /-- An integer division by a chunk size of zero. -/
  | divByZero
  /-- A failed `assert`. -/
  | assertion
  /-- The call reached `abort()`. -/
  | aborted
  /-- An element of an empty vector was read (a read through a null pointer). -/
  | nullRead
  /-- The iteration budget handed to the model ran out. -/
  | noFuel
  deriving DecidableEq, Repr

/-- Result of a call: a returned value or a fault. -/
inductive Outcome (β : Type) where
  | ok (v : β)
  | fault (f : Fault)
  deriving DecidableEq, Repr

/-! ## Machine arithmetic -/

/-- Addition of two `std::size_t` values. -/
def add64 (a b : Nat) : Nat := (a + b) % 2 ^ 64

/-- Subtraction of two `std::size_t` values (wraps below zero). -/
def sub64 (a b : Nat) : Nat := (a + 2 ^ 64 - b % 2 ^ 64) % 2 ^ 64

/-- Multiplication of two `std::size_t` values. -/
def mul64 (a b : Nat) : Nat := (a * b) % 2 ^ 64

/-- Conversion of an unsigned value to `int` (32 bit, two's complement). -/
def toInt32 (n : Nat) : Int :=
  if n % 2 ^ 32 < 2 ^ 31 then ((n % 2 ^ 32 : Nat) : Int) else ((n % 2 ^ 32 : Nat) : Int) - 2 ^ 32

/-- Conversion of an `int` to `std::size_t`. -/
def toSize (i : Int) : Nat := (i % 2 ^ 64).toNat

/-! ## The chunked store -/

/-- The table behind `fInputDataset`: its extent, its cells, and the chunk dimensions
when the layout is `H5D_CHUNKED` (`none` for any other layout). -/
structure Store (α : Type) where
  numRows : Nat
  numCols : Nat
  cell : Nat → Nat → α
  chunk : Option (Nat × Nat)

/-- Modelled from the spec: the elements the store's `readRectangle` delivers for the
hyperslab of `nrows × ncols` cells whose corner is `(row0, col0)`, in row-major order:
element `p` is the cell in row `row0 + p / ncols` and column `col0 + p % ncols`. -/
def Store.rect {α : Type} (s : Store α) (row0 nrows col0 ncols : Nat) : List α :=
  (List.range (nrows * ncols)).map (fun p => s.cell (row0 + p / ncols) (col0 + p % ncols))

/-- Overwrite the elements of `buf` from index `off` on with `data`. -/
def writeAt {α : Type} (buf : List α) (off : Nat) (data : List α) : List α :=
  buf.take off ++ data ++ buf.drop (off + data.length)

/-- Modelled from the spec: one physical read `fInputDataset.read(&buf[off], ...)` of the
store's `readRectangle`, which "fills destBuffer in row-major order for the requested
rectangle; fails on I/O error or out-of-range request".  A selection without elements
transfers nothing.  A selection that leaves the table extent is rejected, and elements
that would land behind the storage of `buf` are a fault.  The memory dataspace handed to
the read is not consulted here: the loop of `GridValues` tests it before the read
(`memSpaceFits`), and the loop of `ColumnValues` records it in its trace. -/
def readInto {α : Type} (s : Store α) (buf : List α) (off row0 nrows col0 ncols : Nat) :
    Outcome (List α) :=
  if nrows * ncols = 0 then .ok buf
  else if ¬ (row0 + nrows ≤ s.numRows ∧ col0 + ncols ≤ s.numCols) then .fault .storeRead
  else if buf.length < off + nrows * ncols then .fault .overrun
  else .ok (writeAt buf off (s.rect row0 nrows col0 ncols))

/-- The row chunk size a read works with: `chunk_dims[0]` when the layout is chunked and
that is smaller than the number of requested rows, else the number of requested rows. -/
def chunkSizeFor {α : Type} (s : Store α) (nRows : Nat) : Nat :=
  match s.chunk with
  | some d => if d.1 < nRows then d.1 else nRows
  | none => nRows

/-! ## ColumnValues -/

/-- One physical read of `ColumnValues`: the file selection starts at row `startRow` and
holds `chunkRows` rows; `memCount` elements are selected in the memory dataspace. -/
structure ColRead where
  startRow : Nat
  chunkRows : Nat
  memCount : Nat
  deriving DecidableEq, Repr

/-- The `for (chunkIdx ...)` loop of `ColumnValues`, with `todo` iterations left. -/
def columnLoop {α : Type} (s : Store α) (colIdx firstRow nRows chunkSize : Nat) :
    Nat → Nat → Nat → List α → List ColRead → Outcome (List α × List ColRead)
  | 0, _, _, column, trace => .ok (column, trace)
  | todo + 1, chunkIdx, memSel, column, trace =>
    let startRow := add64 firstRow (mul64 chunkIdx chunkSize)
    let chunkRows := min chunkSize (sub64 nRows startRow)
    let memSel := if chunkRows ≠ chunkSize then chunkRows else memSel
    match readInto s column startRow startRow chunkRows colIdx 1 with
    | .fault f => .fault f
    | .ok column =>
      columnLoop s colIdx firstRow nRows chunkSize todo (add64 chunkIdx 1) memSel column
        (trace ++ [⟨startRow, chunkRows, memSel⟩])

/-- The value `lastRow` holds after the defaulting at the head of `ColumnValues`. -/
def resolveLastRow {α : Type} (s : Store α) (lastRow : Int) : Int :=
  if lastRow < 0 then toInt32 (sub64 s.numRows 1) else lastRow

/-- `ColumnValues` together with the physical reads it issued. -/
def ColumnValuesTraced {α : Type} (s : Store α) (zero : α) (colIdx firstRow : Nat)
    (lastRow : Int) : Outcome (List α × List ColRead) :=
  let lastRow := resolveLastRow s lastRow
  let nRows := add64 (sub64 (toSize lastRow) firstRow) 1
  if toSize lastRow ≤ firstRow then .ok ([], [])
  else
    let chunkSize := chunkSizeFor s nRows
    if (match s.chunk with
        | some d => decide (d.2 < colIdx)
        | none => false) = true then .fault .assertion
    else if chunkSize = 0 then .fault .divByZero
    else
      columnLoop s colIdx firstRow nRows chunkSize (add64 (nRows / chunkSize) 1) 0 chunkSize
        (List.replicate nRows zero) []

/-- `NDLArSummaryH5DatasetReader::ColumnValues(colIdx, firstRow, lastRow)`. -/
def ColumnValues {α : Type} (s : Store α) (zero : α) (colIdx firstRow : Nat) (lastRow : Int) :
    Outcome (List α) :=
  match ColumnValuesTraced s zero colIdx firstRow lastRow with
  | .ok r => .ok r.1
  | .fault f => .fault f

/-! ## GridValues -/

/-- The memory dataspace of `GridValues`: its rank, the extent it was created with and
the block currently selected at its origin (the second component is `1` for rank 1). -/
structure MemSpace where
  rank : Nat
  dims : Nat × Nat
  sel : Nat × Nat
  deriving DecidableEq, Repr

/-- One physical read of `GridValues`: the file selection (`firstRow`, `chunkRows`,
`startCol`, `nCols`), the index in `fReadBuffer` the data is stored at, the number of
elements selected in the memory dataspace and the number of elements of its extent. -/
structure GridRead where
  firstRow : Nat
  chunkRows : Nat
  startCol : Nat
  nCols : Nat
  dest : Nat
  memCount : Nat
  memExtent : Nat
  deriving DecidableEq, Repr

/-- The call `fReadBuffer.reserve(n)`: storage that is too small is replaced by new
storage of `n` elements with indeterminate content `junk`. -/
def reserve {α : Type} (junk : Nat → α) (buf : List α) (n : Nat) : List α :=
  if buf.length < n then (List.range n).map junk else buf

/-- The memory dataspace `GridValues` builds before its loop. -/
def gridMemSpace (chunkSize startCol endCol : Nat) : MemSpace :=
  if chunkSize = 1 then
    ⟨1, (add64 (sub64 endCol startCol) 1, 1), (add64 (sub64 endCol startCol) 1, 1)⟩
  else if sub64 endCol startCol = 0 then
    ⟨1, (chunkSize, 1), (chunkSize, 1)⟩
  else
    ⟨2, (chunkSize, add64 (sub64 endCol startCol) 1), (chunkSize, add64 (sub64 endCol startCol) 1)⟩

/-- Modelled from the spec: the backend must receive a memory shape "it can fulfill".
The memory dataspace fits a read of `nrows × ncols` file elements when its selection
lies inside the extent it was created with and holds as many elements as the file
selection; a read with any other memory dataspace is rejected. -/
def memSpaceFits (mem : MemSpace) (nrows ncols : Nat) : Bool :=
  decide (mem.sel.1 ≤ mem.dims.1 ∧ mem.sel.2 ≤ mem.dims.2 ∧
    mem.sel.1 * mem.sel.2 = nrows * ncols)

/-- The memory dataspace after the resize test that precedes a read of `chunkRows`
rows: a dataspace of rank 2 whose selection has another number of rows is given the
selection of `chunkRows × nCols` elements at its origin; a dataspace of rank 1 is left
as it is. -/
def gridResize (mem : MemSpace) (chunkRows nCols : Nat) : MemSpace :=
  if mem.rank > 1 ∧ chunkRows ≠ mem.sel.1 then { mem with sel := (chunkRows, nCols) }
  else mem

/-- A run of `GridValues`: the physical reads issued, in order (a rejected read, which
ends the run, included), the storage of `fReadBuffer` when the run ends, and the fault
that ended it (`none` when the call returned). -/
structure GridRun (α : Type) where
  reads : List GridRead
  storage : List α
  fault : Option Fault
  deriving DecidableEq, Repr

/-- The `for (chunkIdx = 0; ; chunkIdx++)` loop of `GridValues`. -/
def gridLoop {α : Type} (s : Store α) (startRow endRow startCol nCols chunkSize : Nat) :
    Nat → Nat → MemSpace → List α → List GridRead → GridRun α
  | 0, _, _, buf, trace => ⟨trace, buf, some .noFuel⟩
  | fuel + 1, chunkIdx, mem, buf, trace =>
    let firstRow := max startRow (mul64 (add64 (startRow / chunkSize) chunkIdx) chunkSize)
    if firstRow > endRow then ⟨trace, buf, none⟩
    else
      let chunkRows := min (sub64 (mul64 (add64 (firstRow / chunkSize) 1) chunkSize) startRow)
        (add64 (sub64 endRow firstRow) 1)
      let mem := gridResize mem chunkRows nCols
      let dest := mul64 (sub64 firstRow startRow) nCols
      let trace := trace ++ [⟨firstRow, chunkRows, startCol, nCols, dest, mem.sel.1 * mem.sel.2,
        mem.dims.1 * mem.dims.2⟩]
      if memSpaceFits mem chunkRows nCols then
        match readInto s buf dest firstRow chunkRows startCol nCols with
        | .fault f => ⟨trace, buf, some f⟩
        | .ok buf =>
          gridLoop s startRow endRow startCol nCols chunkSize fuel (add64 chunkIdx 1) mem buf
            trace
      else ⟨trace, buf, some .storeRead⟩

/-- A run of `NDLArSummaryH5DatasetReader::GridValues(startRow, endRow, startCol, endCol)`
on the storage `fReadBuffer`. -/
def GridValuesRun {α : Type} (fuel : Nat) (s : Store α) (junk : Nat → α)
    (fReadBuffer : List α) (startRow endRow startCol endCol : Nat) : GridRun α :=
  let nRows := add64 (sub64 endRow startRow) 1
  let nCols := add64 (sub64 endCol startCol) 1
  let buf := reserve junk fReadBuffer (mul64 nRows nCols)
  let chunkSize := chunkSizeFor s nRows
  if chunkSize = 0 then ⟨[], buf, some .divByZero⟩
  else
    gridLoop s startRow endRow startCol nCols chunkSize fuel 0
      (gridMemSpace chunkSize startCol endCol) buf []

/-- `NDLArSummaryH5DatasetReader::GridValues(startRow, endRow, startCol, endCol)` run on
the storage `fReadBuffer`: the storage after the call (the returned pointer is its first
element) and the physical reads issued, or the fault that ended the call. -/
def GridValues {α : Type} (fuel : Nat) (s : Store α) (junk : Nat → α) (fReadBuffer : List α)
    (startRow endRow startCol endCol : Nat) : Outcome (List α × List GridRead) :=
  match (GridValuesRun fuel s junk fReadBuffer startRow endRow startCol endCol).fault with
  | none =>
    .ok ((GridValuesRun fuel s junk fReadBuffer startRow endRow startCol endCol).storage,
      (GridValuesRun fuel s junk fReadBuffer startRow endRow startCol endCol).reads)
  | some f => .fault f

/-! ## The column catalog -/

/-- `NDLArSummaryH5DatasetReader::ProductFirstColumn()` for the catalog `fColumnNames`,
the configured name `fEventColumnName` and the cached index `fEvtColumnIdx`: the returned
column and the cache after the call.  `std::find` yields the position of the first match,
or the end of the catalog when there is none. -/
def ProductFirstColumn (fColumnNames : List String) (fEventColumnName : String)
    (fEvtColumnIdx : Int) : Outcome (Nat × Int) :=
  let idx := if fEvtColumnIdx < 0 then toInt32 (fColumnNames.indexOf fEventColumnName)
    else fEvtColumnIdx
  if idx < 0 then .fault .assertion
  else .ok (toSize (idx + 1), idx)

/-! ## The event row index -/

/-- Modelled from the spec: the default of the argument `firstRow` of `ColumnValues`,
declared in the header of the class; the event column is read "in full", from row 0. -/
def defaultFirstRow : Nat := 0

/-- Modelled from the spec: the default of the argument `lastRow` of `ColumnValues`,
declared in the header of the class; an omitted `lastRow` is negative, namely `-1`. -/
def defaultLastRow : Int := -1

/-- `NDLArSummaryH5DatasetReader::EventRowMap()`: when the cache `fRowEvents` is empty the
column `ProductFirstColumn() - 1` is read with the defaulted arguments of `ColumnValues`
and appended, each value converted by `conv`; then `fRowEvents[0]`,
`fRowEvents[size() - 1]` and `back()` are read for the printout, which on a vector that is
still empty is a read through a null pointer. -/
def EventRowMap {α : Type} (s : Store α) (zero : α) (conv : α → Nat)
    (fColumnNames : List String) (fEventColumnName : String) (fEvtColumnIdx : Int)
    (fRowEvents : List Nat) : Outcome (List Nat) :=
  if fRowEvents.isEmpty then
    match ProductFirstColumn fColumnNames fEventColumnName fEvtColumnIdx with
    | .fault f => .fault f
    | .ok c =>
      match ColumnValues s zero (sub64 c.1 1) defaultFirstRow defaultLastRow with
      | .fault f => .fault f
      | .ok colVals =>
        if (fRowEvents ++ colVals.map conv).isEmpty then .fault .nullRead
        else .ok (fRowEvents ++ colVals.map conv)
  else .ok fRowEvents

/-- `NDLArSummaryH5DatasetReader::Events()`: the set built from the event row map. -/
def Events {α : Type} (s : Store α) (zero : α) (conv : α → Nat)
    (fColumnNames : List String) (fEventColumnName : String) (fEvtColumnIdx : Int)
    (fRowEvents : List Nat) : Outcome (Finset Nat) :=
  match EventRowMap s zero conv fColumnNames fEventColumnName fEvtColumnIdx fRowEvents with
  | .fault f => .fault f
  | .ok m => .ok m.toFinset

/-- The element `EventRowMap()[i]`; `stray` is what memory holds outside the vector. -/
def rowAt (stray : Nat → Nat) (m : List Nat) (i : Nat) : Nat :=
  match m[i]? with
  | some v => v
  | none => stray i

/-- The two-ended scan of `EventRowEdges` with `todo` iterations left: the values of
`firstRow` and `lastRow` when the loop is left. -/
def scanEnds (stray : Nat → Nat) (m : List Nat) (event : Nat) : Nat → Nat → Int × Int
  | 0, _ => (-1, -1)
  | todo + 1, counter =>
    if rowAt stray m counter = event then (toInt32 counter, -1)
    else if rowAt stray m (sub64 (sub64 m.length counter) 1) = event then
      (-1, toInt32 (sub64 (sub64 m.length counter) 1))
    else scanEnds stray m event todo (add64 counter 1)

/-- The `while` loop of `EventRowEdges`: the value of `otherEnd` when the loop is left,
or `none` when `fuel` evaluations of the loop condition were not enough. -/
def walkEdge (stray : Nat → Nat) (m : List Nat) (event : Nat) (step : Int) :
    Nat → Int → Option Int
  | 0, _ => none
  | fuel + 1, otherEnd =>
    if rowAt stray m (toSize otherEnd) = event ∧ otherEnd ≥ 0 ∧ otherEnd < toInt32 m.length then
      walkEdge stray m event step fuel (otherEnd + step)
    else some otherEnd

/-- `NDLArSummaryH5DatasetReader::EventRowEdges(event)` on the event row map `m`.  The
outward walk evaluates its condition at most `m.length + 1` times, which is the budget
it is given. -/
def EventRowEdges (stray : Nat → Nat) (m : List Nat) (event : Nat) : Outcome (Int × Int) :=
  let found := scanEnds stray m event (m.length / 2) 0
  if found.1 = -1 ∧ found.2 = -1 then .ok (found.1, found.2)
  else
    let step : Int := if found.1 ≥ 0 then 1 else -1
    let start : Int := if found.1 ≥ 0 then found.1 else found.2
    match walkEdge stray m event step (m.length + 1) start with
    | none => .fault .noFuel
    | some stop =>
      let otherEnd := stop - step
      let firstRow := if found.1 ≥ 0 then found.1 else otherEnd
      let lastRow := if found.1 ≥ 0 then otherEnd else found.2
      if firstRow < 0 ∨ lastRow < 0 ∨ lastRow < firstRow then .fault .aborted
      else .ok (firstRow, lastRow)

/-! ## Proof-side abbreviations -/

/-- The first row of block `chunkIdx` of `GridValues`, computed without wrap-around:
`max(startRow, (startRow / chunkSize + chunkIdx) * chunkSize)`. -/
def gFirst (startRow chunkSize chunkIdx : Nat) : Nat :=
  max startRow ((startRow / chunkSize + chunkIdx) * chunkSize)

/-- The rows `startRow ≤ r < upTo` (and `r ≤ endRow`) of the requested rectangle are in
place in `buf`, a storage of `len` elements laid out with `nCols` elements per row. -/
def GridInv {α : Type} (s : Store α) (startRow endRow startCol nCols len upTo : Nat)
    (buf : List α) : Prop :=
  buf.length = len ∧
    ∀ r c, startRow ≤ r → r < upTo → r ≤ endRow → c < nCols →
      buf[(r - startRow) * nCols + c]? = some (s.cell r (startCol + c))

/-- A physical read of `GridValues` starts inside the request and stores its rows at
the index of its first row in the row-major output. -/
def GridReadPlaced (startRow nCols : Nat) (rd : GridRead) : Prop :=
  startRow ≤ rd.firstRow ∧ rd.dest = (rd.firstRow - startRow) * nCols

/-- A physical read of `GridValues` starts at `startRow` or at a multiple of the chunk
size `cs` the loop works with. -/
def GridReadAligned (startRow cs : Nat) (rd : GridRead) : Prop :=
  rd.firstRow = startRow ∨ cs ∣ rd.firstRow

/-- A table of `rows × cols` cells for concrete runs: the cell in row `r` and column `c`
holds `100 + 10 * r + c`. -/
def sampleStore (rows cols : Nat) (chunk : Option (Nat × Nat)) : Store Nat :=
  ⟨rows, cols, fun r c => 100 + 10 * r + c, chunk⟩

/-- The rows of `m` whose value is `event` form one contiguous run (the invariant the
event row index relies on): a row between two rows of the event belongs to the event. -/
def contiguousRun (m : List Nat) (event : Nat) : Prop :=
  ∀ i j k : Nat, i < j → j < k → m[i]? = some event → m[k]? = some event →
    m[j]? = some event

/-- The table of the scenario of the specification: six rows whose event column (column
0) holds `5, 5, 5, 7, 7, 9`, followed by three data columns. -/
def scenarioStore : Store Nat :=
  ⟨6, 4, fun r c => if c = 0 then [5, 5, 5, 7, 7, 9].getD r 0 else 100 + 10 * r + c, none⟩

/-- The indices at which the two-ended scan of `EventRowEdges` reads `EventRowMap()`, in
the order of the reads, with `todo` iterations left. -/
def scanReads (stray : Nat → Nat) (m : List Nat) (event : Nat) : Nat → Nat → List Nat
  | 0, _ => []
  | todo + 1, counter =>
    if rowAt stray m counter = event then [counter]
    else if rowAt stray m (sub64 (sub64 m.length counter) 1) = event then
      [counter, sub64 (sub64 m.length counter) 1]
    else
      counter :: sub64 (sub64 m.length counter) 1 ::
        scanReads stray m event todo (add64 counter 1)

/-- The indices at which the `while` loop of `EventRowEdges` reads `EventRowMap()`: every
evaluation of the loop condition reads the element at `otherEnd` before the bounds of
`otherEnd` are tested. -/
def walkReads (stray : Nat → Nat) (m : List Nat) (event : Nat) (step : Int) :
    Nat → Int → List Nat
  | 0, _ => []
  | fuel + 1, otherEnd =>
    toSize otherEnd ::
      (if rowAt stray m (toSize otherEnd) = event ∧ otherEnd ≥ 0 ∧ otherEnd < toInt32 m.length
        then walkReads stray m event step fuel (otherEnd + step)
        else [])

/-- The indices at which a call of `EventRowEdges` reads `EventRowMap()`: those of the scan,
then, when an anchor was found, those of the outward walk. -/
def EventRowEdgesReads (stray : Nat → Nat) (m : List Nat) (event : Nat) : List Nat :=
  let found := scanEnds stray m event (m.length / 2) 0
  scanReads stray m event (m.length / 2) 0 ++
    (if found.1 = -1 ∧ found.2 = -1 then []
     else
      walkReads stray m event (if found.1 ≥ 0 then 1 else -1) (m.length + 1)
        (if found.1 ≥ 0 then found.1 else found.2))

/-- A physical read of `GridValues` holds at least one row and ends at `endRow` at the
latest. -/
def GridReadInside (endRow : Nat) (rd : GridRead) : Prop :=
  1 ≤ rd.chunkRows ∧ rd.firstRow + rd.chunkRows ≤ endRow + 1

/-- The value of `startRow` in iteration `chunkIdx` of the loop of `ColumnValues`:
`firstRow + chunkIdx * chunkSize`. -/
def columnStart (firstRow chunkSize chunkIdx : Nat) : Nat :=
  add64 firstRow (mul64 chunkIdx chunkSize)

/-- The value of `chunkRows` in iteration `chunkIdx` of the loop of `ColumnValues`:
`std::min(chunkSize, nRows - startRow)`, the number of rows that read requests. -/
def columnRows (firstRow nRows chunkSize chunkIdx : Nat) : Nat :=
  min chunkSize (sub64 nRows (columnStart firstRow chunkSize chunkIdx))

/-! ## Arithmetic without wrap-around -/

theorem add64_eq {a b : Nat} (h : a + b < 2 ^ 64) : add64 a b = a + b := by
  unfold add64; exact Nat.mod_eq_of_lt h

theorem sub64_eq {a b : Nat} (hb : b ≤ a) (ha : a < 2 ^ 64) : sub64 a b = a - b := by
  unfold sub64
  have hb2 : b % 2 ^ 64 = b := Nat.mod_eq_of_lt (by omega)
  rw [hb2]
  omega

theorem mul64_eq {a b : Nat} (h : a * b < 2 ^ 64) : mul64 a b = a * b := by
  unfold mul64; exact Nat.mod_eq_of_lt h

theorem toInt32_eq {n : Nat} (h : n < 2 ^ 31) : toInt32 n = (n : Int) := by
  unfold toInt32
  have h1 : n % 2 ^ 32 = n := Nat.mod_eq_of_lt (by omega)
  rw [h1, if_pos h]

theorem toSize_natCast {n : Nat} (h : n < 2 ^ 64) : toSize (n : Int) = n := by
  unfold toSize
  omega

/-! ## Storage lemmas -/

theorem Store.rect_length {α : Type} (s : Store α) (row0 nrows col0 ncols : Nat) :
    (s.rect row0 nrows col0 ncols).length = nrows * ncols := by
  simp [Store.rect]

theorem Store.rect_getElem? {α : Type} (s : Store α) (row0 nrows col0 ncols p : Nat)
    (hp : p < nrows * ncols) :
    (s.rect row0 nrows col0 ncols)[p]? = some (s.cell (row0 + p / ncols) (col0 + p % ncols)) := by
  simp [Store.rect, List.getElem?_map, List.getElem?_range hp]

theorem writeAt_length {α : Type} (buf data : List α) (off : Nat)
    (h : off + data.length ≤ buf.length) : (writeAt buf off data).length = buf.length := by
  simp [writeAt]
  omega

theorem writeAt_getElem?_lt {α : Type} (buf data : List α) (off p : Nat)
    (h : off + data.length ≤ buf.length) (hp : p < off) :
    (writeAt buf off data)[p]? = buf[p]? := by
  unfold writeAt
  rw [List.append_assoc, List.getElem?_append_left (by simp; omega)]
  simp [List.getElem?_take, hp]

theorem writeAt_getElem?_mid {α : Type} (buf data : List α) (off p : Nat)
    (h : off + data.length ≤ buf.length) (hp : p < data.length) :
    (writeAt buf off data)[off + p]? = data[p]? := by
  unfold writeAt
  rw [List.append_assoc, List.getElem?_append_right (by simp)]
  have h1 : (List.take off buf).length = off := by simp; omega
  rw [h1, Nat.add_sub_cancel_left, List.getElem?_append_left hp]

theorem writeAt_getElem?_ge {α : Type} (buf data : List α) (off p : Nat)
    (h : off + data.length ≤ buf.length) (hp : off + data.length ≤ p) :
    (writeAt buf off data)[p]? = buf[p]? := by
  unfold writeAt
  have h1 : (List.take off buf ++ data).length = off + data.length := by simp; omega
  rw [List.getElem?_append_right (by rw [h1]; exact hp), h1, List.getElem?_drop]
  congr 1
  omega

/-! ## The block starts of `GridValues` -/

theorem gFirst_zero (startRow cs : Nat) : gFirst startRow cs 0 = startRow := by
  unfold gFirst
  have := Nat.div_mul_le_self startRow cs
  simp only [Nat.add_zero]
  omega

theorem gFirst_succ (startRow cs i : Nat) (hcs : 0 < cs) :
    gFirst startRow cs (i + 1) = (startRow / cs + (i + 1)) * cs := by
  unfold gFirst
  have h1 : startRow < startRow / cs * cs + cs := Nat.lt_div_mul_add hcs
  have h2 : (startRow / cs + (i + 1)) * cs = startRow / cs * cs + cs + i * cs := by ring
  have h3 : 0 ≤ i * cs := Nat.zero_le _
  omega

theorem gFirst_div (startRow cs i : Nat) (hcs : 0 < cs) :
    gFirst startRow cs i / cs = startRow / cs + i := by
  cases i with
  | zero => rw [gFirst_zero]; rfl
  | succ i => rw [gFirst_succ _ _ _ hcs, Nat.mul_div_cancel _ hcs]

theorem gFirst_next (startRow cs i : Nat) (hcs : 0 < cs) :
    (gFirst startRow cs i / cs + 1) * cs = gFirst startRow cs (i + 1) := by
  rw [gFirst_div _ _ _ hcs, gFirst_succ _ _ _ hcs, Nat.add_assoc]

theorem gFirst_step (startRow cs i : Nat) (hcs : 0 < cs) :
    gFirst startRow cs i < gFirst startRow cs (i + 1) ∧
      gFirst startRow cs (i + 1) ≤ gFirst startRow cs i + cs := by
  have h1 : startRow < startRow / cs * cs + cs := Nat.lt_div_mul_add hcs
  have h0 := Nat.div_mul_le_self startRow cs
  cases i with
  | zero =>
    rw [gFirst_zero, gFirst_succ _ _ _ hcs]
    have h2 : (startRow / cs + (0 + 1)) * cs = startRow / cs * cs + cs := by ring
    omega
  | succ i =>
    rw [gFirst_succ _ _ _ hcs, gFirst_succ _ _ _ hcs]
    have h2 : (startRow / cs + (i + 1 + 1)) * cs = (startRow / cs + (i + 1)) * cs + cs := by ring
    omega

theorem gFirst_ge (startRow cs i : Nat) (hcs : 0 < cs) : startRow + i ≤ gFirst startRow cs i := by
  induction i with
  | zero => rw [gFirst_zero]; omega
  | succ i ih => have := (gFirst_step startRow cs i hcs).1; omega

theorem gFirst_start_le (startRow cs i : Nat) : startRow ≤ gFirst startRow cs i := by
  unfold gFirst; omega

theorem gFirst_raw_le (startRow cs i : Nat) :
    (startRow / cs + i) * cs ≤ gFirst startRow cs i := by
  unfold gFirst; omega

theorem gFirst_le_iff (startRow endRow cs i : Nat) (hcs : 0 < cs) (hse : startRow ≤ endRow) :
    gFirst startRow cs i ≤ endRow ↔ i < endRow / cs - startRow / cs + 1 := by
  have hq : startRow / cs ≤ endRow / cs := Nat.div_le_div_right hse
  cases i with
  | zero =>
    rw [gFirst_zero]
    constructor
    · intro _; omega
    · intro _; exact hse
  | succ i =>
    rw [gFirst_succ _ _ _ hcs, ← Nat.le_div_iff_mul_le hcs]
    omega

/-- The wrapped computation of `firstRow` agrees with `gFirst`. -/
theorem firstRow_eq (startRow endRow cs i : Nat) (hcs : 0 < cs)
    (h64 : endRow + cs < 2 ^ 64) (hse : startRow ≤ endRow)
    (hprev : i = 0 ∨ gFirst startRow cs (i - 1) ≤ endRow) :
    max startRow (mul64 (add64 (startRow / cs) i) cs) = gFirst startRow cs i := by
  have hb : (startRow / cs + i) * cs ≤ endRow + cs := by
    rcases hprev with h | h
    · subst h
      have := Nat.div_mul_le_self startRow cs
      simp only [Nat.add_zero]; omega
    · cases i with
      | zero =>
        have := Nat.div_mul_le_self startRow cs
        simp only [Nat.add_zero]; omega
      | succ i =>
        have h1 := (gFirst_step startRow cs i hcs).2
        have h2 := gFirst_raw_le startRow cs (i + 1)
        simp only [Nat.add_sub_cancel] at h
        omega
  have hq : startRow / cs + i ≤ (startRow / cs + i) * cs := Nat.le_mul_of_pos_right _ hcs
  rw [add64_eq (by omega), mul64_eq (by omega)]
  rfl

/-- The wrapped computation of `chunkRows` agrees with the unwrapped one. -/
theorem chunkRows_eq (startRow endRow cs i : Nat) (hcs : 0 < cs)
    (h64 : endRow + cs < 2 ^ 64) (hle : gFirst startRow cs i ≤ endRow) :
    min (sub64 (mul64 (add64 (gFirst startRow cs i / cs) 1) cs) startRow)
        (add64 (sub64 endRow (gFirst startRow cs i)) 1) =
      min (gFirst startRow cs (i + 1) - startRow) (endRow - gFirst startRow cs i + 1) := by
  have hn := gFirst_next startRow cs i hcs
  have hs := gFirst_step startRow cs i hcs
  have h0 := gFirst_start_le startRow cs i
  have hq : gFirst startRow cs i / cs + 1 ≤ (gFirst startRow cs i / cs + 1) * cs :=
    Nat.le_mul_of_pos_right _ hcs
  rw [add64_eq (by omega), mul64_eq (by omega), hn, sub64_eq (by omega) (by omega),
    sub64_eq hle (by omega), add64_eq (by omega)]

/-! ## One physical read of `GridValues` -/

theorem readInto_block {α : Type} (s : Store α) (buf : List α)
    (startRow endRow startCol nCols len F rows Fnext : Nat)
    (hinv : GridInv s startRow endRow startCol nCols len F buf)
    (hF : startRow ≤ F) (hrows : 1 ≤ rows) (hnc : 1 ≤ nCols)
    (hend : F + rows ≤ endRow + 1) (hendN : endRow < s.numRows)
    (hcolN : startCol + nCols ≤ s.numCols)
    (hlen : (endRow - startRow + 1) * nCols ≤ len)
    (hcover : ∀ r, F ≤ r → r < Fnext → r ≤ endRow → r < F + rows) :
    ∃ out, readInto s buf ((F - startRow) * nCols) F rows startCol nCols = .ok out ∧
      GridInv s startRow endRow startCol nCols len Fnext out := by
  obtain ⟨hbl, hcells⟩ := hinv
  have hpos : rows * nCols ≠ 0 := Nat.mul_ne_zero (by omega) (by omega)
  have hfit : (F - startRow) * nCols + rows * nCols ≤ buf.length := by
    have h1 : (F - startRow) * nCols + rows * nCols = (F - startRow + rows) * nCols := by ring
    have h2 : (F - startRow + rows) * nCols ≤ (endRow - startRow + 1) * nCols :=
      Nat.mul_le_mul_right _ (by omega)
    omega
  have hdl : (s.rect F rows startCol nCols).length = rows * nCols := s.rect_length _ _ _ _
  refine ⟨writeAt buf ((F - startRow) * nCols) (s.rect F rows startCol nCols), ?_, ?_, ?_⟩
  · unfold readInto
    rw [if_neg hpos, if_neg (by simp; omega), if_neg (by omega)]
  · rw [writeAt_length _ _ _ (by rw [hdl]; exact hfit)]; exact hbl
  · intro r c hr1 hr2 hr3 hc
    by_cases hrF : r < F
    · have hlt : (r - startRow) * nCols + c < (F - startRow) * nCols := by
        have h1 : (r - startRow + 1) * nCols ≤ (F - startRow) * nCols :=
          Nat.mul_le_mul_right _ (by omega)
        have h2 : (r - startRow + 1) * nCols = (r - startRow) * nCols + nCols := by ring
        omega
      rw [writeAt_getElem?_lt _ _ _ _ (by rw [hdl]; exact hfit) hlt]
      exact hcells r c hr1 hrF hr3 hc
    · have hrin : r < F + rows := hcover r (by omega) hr2 hr3
      have hsplit : (r - startRow) * nCols + c =
          (F - startRow) * nCols + ((r - F) * nCols + c) := by
        have h1 : r - startRow = (F - startRow) + (r - F) := by omega
        rw [h1]; ring
      have hin : (r - F) * nCols + c < rows * nCols := by
        have h1 : (r - F + 1) * nCols ≤ rows * nCols := Nat.mul_le_mul_right _ (by omega)
        have h2 : (r - F + 1) * nCols = (r - F) * nCols + nCols := by ring
        omega
      rw [hsplit, writeAt_getElem?_mid _ _ _ _ (by rw [hdl]; exact hfit) (by rw [hdl]; exact hin),
        s.rect_getElem? _ _ _ _ _ hin]
      have hd : ((r - F) * nCols + c) / nCols = r - F := by
        rw [Nat.mul_comm, Nat.mul_add_div (by omega), Nat.div_eq_of_lt hc, Nat.add_zero]
      have hm : ((r - F) * nCols + c) % nCols = c := by
        rw [Nat.mul_comm, Nat.mul_add_mod, Nat.mod_eq_of_lt hc]
      rw [hd, hm]
      congr 2
      omega

/-! ## The loop of `GridValues` -/

/-- A run of the loop of `GridValues` that ends without a fault leaves the requested
rectangle in place, has issued one read for every block index below
`endRow / cs - startRow / cs + 1`, and every read is placed at the index of its first
row, holds at least one row, ends at `endRow` at the latest and starts at `startRow` or
at a multiple of `cs`. -/
theorem gridLoop_sound {α : Type} (s : Store α) (startRow endRow startCol nCols cs len : Nat)
    (hcs : 0 < cs) (h64 : endRow + cs < 2 ^ 64)
    (hmul : (endRow - startRow + 1) * nCols < 2 ^ 64)
    (hse : startRow ≤ endRow) (hendN : endRow < s.numRows)
    (hcolN : startCol + nCols ≤ s.numCols) (hnc : 1 ≤ nCols)
    (hlen : (endRow - startRow + 1) * nCols ≤ len) :
    ∀ (fuel i : Nat) (mem : MemSpace) (buf : List α) (trace : List GridRead)
      (run : GridRun α),
      (i = 0 ∨ gFirst startRow cs (i - 1) ≤ endRow) →
      GridInv s startRow endRow startCol nCols len (gFirst startRow cs i) buf →
      (∀ rd ∈ trace, GridReadPlaced startRow nCols rd ∧ GridReadInside endRow rd ∧
        GridReadAligned startRow cs rd) →
      gridLoop s startRow endRow startCol nCols cs fuel i mem buf trace = run →
      run.fault = none →
      GridInv s startRow endRow startCol nCols len (endRow + 1) run.storage ∧
        run.reads.length + i = trace.length + (endRow / cs - startRow / cs + 1) ∧
        ∀ rd ∈ run.reads, GridReadPlaced startRow nCols rd ∧ GridReadInside endRow rd ∧
          GridReadAligned startRow cs rd := by
  intro fuel
  induction fuel with
  | zero =>
    intro i mem buf trace run _ _ _ hrun hnone
    simp only [gridLoop] at hrun
    subst hrun
    cases hnone
  | succ fuel ih =>
    intro i mem buf trace run hprev hinv htrace hrun hnone
    simp only [gridLoop] at hrun
    rw [firstRow_eq startRow endRow cs i hcs h64 hse hprev] at hrun
    have hiff := gFirst_le_iff startRow endRow cs i hcs hse
    by_cases hgt : gFirst startRow cs i > endRow
    · rw [if_pos hgt] at hrun
      subst hrun
      refine ⟨⟨hinv.1, ?_⟩, ?_, htrace⟩
      · intro r c h1 _ h3 h4
        exact hinv.2 r c h1 (by omega) h3 h4
      · show trace.length + i = _
        rcases hprev with h | h
        · subst h
          rw [gFirst_zero] at hgt
          omega
        · have h3 := (gFirst_le_iff startRow endRow cs (i - 1) hcs hse).1 h
          have h4 : ¬ (i < endRow / cs - startRow / cs + 1) := fun hh => by
            have := hiff.2 hh
            omega
          omega
    · rw [if_neg hgt] at hrun
      have hle : gFirst startRow cs i ≤ endRow := by omega
      have h0 := gFirst_start_le startRow cs i
      have hs := gFirst_step startRow cs i hcs
      rw [chunkRows_eq startRow endRow cs i hcs h64 hle] at hrun
      have hdest : mul64 (sub64 (gFirst startRow cs i) startRow) nCols
          = (gFirst startRow cs i - startRow) * nCols := by
        rw [sub64_eq h0 (by omega)]
        apply mul64_eq
        have : (gFirst startRow cs i - startRow) * nCols ≤ (endRow - startRow + 1) * nCols :=
          Nat.mul_le_mul_right _ (by omega)
        omega
      rw [hdest] at hrun
      have hidx : add64 i 1 = i + 1 := by
        apply add64_eq
        have := gFirst_ge startRow cs i hcs
        omega
      rw [hidx] at hrun
      by_cases hfit : memSpaceFits (gridResize mem
          (min (gFirst startRow cs (i + 1) - startRow) (endRow - gFirst startRow cs i + 1))
          nCols)
          (min (gFirst startRow cs (i + 1) - startRow) (endRow - gFirst startRow cs i + 1))
          nCols = true
      · rw [if_pos hfit] at hrun
        obtain ⟨out2, hread, hinv2⟩ := readInto_block s buf startRow endRow startCol nCols len
          (gFirst startRow cs i)
          (min (gFirst startRow cs (i + 1) - startRow) (endRow - gFirst startRow cs i + 1))
          (gFirst startRow cs (i + 1)) hinv h0 (by omega) hnc (by omega) hendN hcolN hlen
          (by intro r hr1 hr2 hr3; omega)
        rw [hread] at hrun
        simp only [] at hrun
        obtain ⟨h1, h2, h3⟩ := ih (i + 1) _ out2 _ run (Or.inr (by simpa using hle)) hinv2
          (by
            intro rd hrd
            rcases List.mem_append.1 hrd with h | h
            · exact htrace rd h
            · rw [List.mem_singleton] at h
              subst h
              refine ⟨⟨?_, ?_⟩, ⟨?_, ?_⟩, ?_⟩
              · exact h0
              · rfl
              · dsimp only
                omega
              · dsimp only
                omega
              · cases i with
                | zero => left; exact gFirst_zero startRow cs
                | succ j =>
                  right
                  dsimp only
                  rw [gFirst_succ _ _ _ hcs]
                  exact Dvd.intro_left _ rfl)
          hrun hnone
        refine ⟨h1, ?_, h3⟩
        rw [List.length_append, List.length_singleton] at h2
        omega
      · rw [if_neg hfit] at hrun
        subst hrun
        cases hnone

theorem reserve_length_ge {α : Type} (junk : Nat → α) (buf : List α) (n : Nat) :
    n ≤ (reserve junk buf n).length := by
  unfold reserve
  split
  · simp
  · omega

theorem chunkSizeFor_bounds {α : Type} (s : Store α) (nRows : Nat) (hn : 1 ≤ nRows)
    (hchunk : ∀ d, s.chunk = some d → 1 ≤ d.1) :
    1 ≤ chunkSizeFor s nRows ∧ chunkSizeFor s nRows ≤ nRows := by
  unfold chunkSizeFor
  cases hc : s.chunk with
  | none => simp; omega
  | some d =>
    have := hchunk d hc
    simp only
    split <;> omega

/-! ## A call of `GridValues` that returns -/

/-- The first `nRows * nCols` elements of a storage that holds a rectangle in row-major
order are the row-major list of the rectangle. -/
theorem take_eq_rect {α : Type} (s : Store α) (out : List α)
    (startRow nRows startCol nCols : Nat)
    (hcells : ∀ r c, startRow ≤ r → r < startRow + nRows → c < nCols →
      out[(r - startRow) * nCols + c]? = some (s.cell r (startCol + c))) :
    out.take (nRows * nCols) = s.rect startRow nRows startCol nCols := by
  apply List.ext_getElem?
  intro p
  by_cases hp : p < nRows * nCols
  · have hnc : 0 < nCols := by
      rcases Nat.eq_zero_or_pos nCols with h | h
      · rw [h] at hp; simp at hp
      · exact h
    have hdiv : p / nCols < nRows := by
      rw [Nat.div_lt_iff_lt_mul hnc]; exact hp
    have hmod : p % nCols < nCols := Nat.mod_lt _ hnc
    have hsplit : p / nCols * nCols + p % nCols = p := Nat.div_add_mod' p nCols
    rw [List.getElem?_take, if_pos hp, s.rect_getElem? _ _ _ _ _ hp]
    have := hcells (startRow + p / nCols) (p % nCols) (Nat.le_add_right _ _)
      (Nat.add_lt_add_left hdiv _) hmod
    rw [Nat.add_sub_cancel_left, hsplit] at this
    exact this
  · rw [List.getElem?_take, if_neg hp, List.getElem?_eq_none]
    rw [s.rect_length]; omega

/-- A call of `GridValues` that returns, on a valid request to a table whose floats fit a
64-bit address space: the first `nRows * nCols` elements of the storage are the
requested rectangle in row-major order, exactly `endRow / cs - startRow / cs + 1` reads
were issued (`cs` the chunk size the call works with), and every read is placed at the
index of its first row, holds at least one row, ends at `endRow` at the latest and
starts at `startRow` or at a multiple of `cs`. -/
theorem GridValues_sound {α : Type} (s : Store α) (junk : Nat → α)
    (fReadBuffer : List α) (fuel startRow endRow startCol endCol : Nat)
    (out : List α) (reads : List GridRead)
    (hchunk : ∀ d, s.chunk = some d → 1 ≤ d.1)
    (hsize : 4 * (s.numRows * s.numCols) < 2 ^ 64)
    (hrow : startRow ≤ endRow) (hrowN : endRow < s.numRows)
    (hcol : startCol ≤ endCol) (hcolN : endCol < s.numCols)
    (hret : GridValues fuel s junk fReadBuffer startRow endRow startCol endCol
      = .ok (out, reads)) :
    out.take ((endRow - startRow + 1) * (endCol - startCol + 1))
      = s.rect startRow (endRow - startRow + 1) startCol (endCol - startCol + 1) ∧
    reads.length = endRow / chunkSizeFor s (endRow - startRow + 1)
      - startRow / chunkSizeFor s (endRow - startRow + 1) + 1 ∧
    ∀ rd ∈ reads, GridReadPlaced startRow (endCol - startCol + 1) rd ∧
      GridReadInside endRow rd ∧
      GridReadAligned startRow (chunkSizeFor s (endRow - startRow + 1)) rd := by
  have hcols1 : 1 ≤ s.numCols := by omega
  have hrows64 : 4 * s.numRows < 2 ^ 64 := by
    have : s.numRows * 1 ≤ s.numRows * s.numCols := Nat.mul_le_mul_left _ hcols1
    omega
  have hcols64 : 4 * s.numCols < 2 ^ 64 := by
    have : 1 * s.numCols ≤ s.numRows * s.numCols := Nat.mul_le_mul_right _ (by omega)
    omega
  have hnR : add64 (sub64 endRow startRow) 1 = endRow - startRow + 1 := by
    rw [sub64_eq hrow (by omega), add64_eq (by omega)]
  have hnC : add64 (sub64 endCol startCol) 1 = endCol - startCol + 1 := by
    rw [sub64_eq hcol (by omega), add64_eq (by omega)]
  have hprod : (endRow - startRow + 1) * (endCol - startCol + 1) ≤ s.numRows * s.numCols :=
    Nat.mul_le_mul (by omega) (by omega)
  obtain ⟨hcs1, hcs2⟩ := chunkSizeFor_bounds s (endRow - startRow + 1) (by omega) hchunk
  have hrunEq : GridValuesRun fuel s junk fReadBuffer startRow endRow startCol endCol
      = gridLoop s startRow endRow startCol (endCol - startCol + 1)
          (chunkSizeFor s (endRow - startRow + 1)) fuel 0
          (gridMemSpace (chunkSizeFor s (endRow - startRow + 1)) startCol endCol)
          (reserve junk fReadBuffer ((endRow - startRow + 1) * (endCol - startCol + 1))) [] := by
    unfold GridValuesRun
    simp only [hnR, hnC]
    rw [if_neg (by omega), mul64_eq (by omega)]
  unfold GridValues at hret
  rw [hrunEq] at hret
  split at hret
  · rename_i hnone
    injection hret with h
    injection h with hout hreads
    obtain ⟨hinv, hlen, hall⟩ := gridLoop_sound s startRow endRow startCol
      (endCol - startCol + 1) (chunkSizeFor s (endRow - startRow + 1))
      (reserve junk fReadBuffer ((endRow - startRow + 1) * (endCol - startCol + 1))).length
      hcs1 (by omega) (by omega) hrow hrowN (by omega) (by omega)
      (reserve_length_ge _ _ _) fuel 0 _ _ [] _ (Or.inl rfl)
      ⟨rfl, by
        intro r c h1 h2
        rw [gFirst_zero] at h2
        omega⟩
      (by intro rd hrd; cases hrd) rfl hnone
    rw [hout] at hinv
    rw [hreads] at hlen hall
    refine ⟨?_, by simpa using hlen, hall⟩
    exact take_eq_rect s out startRow (endRow - startRow + 1) startCol
      (endCol - startCol + 1) (fun r c a b d => hinv.2 r c a (by omega) (by omega) d)
  · cases hret

/-! ## Claims -/

/-- C1: a valid request on which `GridValues` does not deliver the rectangle.  Rows 1 to
4 and columns 0 to 2 of a 6 × 3 table in chunks of two rows: the second read asks for
the three rows 2 to 4, its memory selection of 3 × 3 elements leaves the dataspace
created with 2 × 3 elements, the read is rejected and the call ends with row 1 alone in
the storage.  Rows 1 to 4 of column 1 of the same table with a layout that is not
chunked: the first read selects 3 file elements against the 4 elements of the rank-1
memory dataspace and is rejected. -/
theorem GridValues_rectangle_not_delivered :
    GridValuesRun 5 (sampleStore 6 3 (some (2, 3))) (fun _ => 0) [] 1 4 0 2 =
      ⟨[⟨1, 1, 0, 3, 0, 3, 6⟩, ⟨2, 3, 0, 3, 3, 9, 6⟩],
        [110, 111, 112, 0, 0, 0, 0, 0, 0, 0, 0, 0], some .storeRead⟩ ∧
    GridValues 5 (sampleStore 6 3 (some (2, 3))) (fun _ => 0) [] 1 4 0 2 = .fault .storeRead ∧
    GridValuesRun 5 (sampleStore 6 3 none) (fun _ => 0) [] 1 4 1 1 =
      ⟨[⟨1, 3, 1, 1, 0, 4, 4⟩], [0, 0, 0, 0], some .storeRead⟩ ∧
    GridValues 5 (sampleStore 6 3 none) (fun _ => 0) [] 1 4 1 1 = .fault .storeRead := by
  decide

/-- C2: `ColumnValues` run on two requests with `firstRow ≤ lastRow < numRows` that do not
deliver the requested rows.  Rows 1 to 5 of column 1 of a 10 × 3 table in chunks of four
rows come back as a zero followed by rows 1 to 4, where rows 1 to 5 hold
`111, 121, 131, 141, 151`; and the single row 3 comes back as the empty sequence. -/
theorem ColumnValues_misplaces_rows :
    ColumnValues (sampleStore 10 3 (some (4, 3))) 0 1 1 5 = .ok [0, 111, 121, 131, 141] ∧
    (List.range 5).map (fun i => (sampleStore 10 3 (some (4, 3))).cell (1 + i) 1)
      = [111, 121, 131, 141, 151] ∧
    ColumnValues (sampleStore 10 3 (some (4, 3))) 0 1 3 3 = .ok [] := by
  decide

/-- C5: on a table of one row the defaulted full-column read returns no value, the
event row map stays empty and `EventRowMap()` reads `fRowEvents[0]` of the empty vector:
`Events()` ends in that fault, although the event column holds the value 100. -/
theorem Events_single_row_fails :
    ColumnValues (sampleStore 1 3 none) 0 0 defaultFirstRow defaultLastRow = .ok [] ∧
    EventRowMap (sampleStore 1 3 none) 0 id ["evt", "x", "y"] "evt" (-1) []
      = .fault .nullRead ∧
    Events (sampleStore 1 3 none) 0 id ["evt", "x", "y"] "evt" (-1) [] = .fault .nullRead ∧
    ((List.range 1).map (fun r => id ((sampleStore 1 3 none).cell r 0))).toFinset = {100} := by
  decide

/-- C6: chunk size 2, rows 1 to 4 of a 6-row table: the physical reads issued are row 1
and rows 2 to 4; the second one spans the chunks of rows 2-3 and of rows 4-5 (it is
also the read the store rejects, which ends the call). -/
theorem GridValues_read_spans_two_chunks :
    (GridValuesRun 5 (sampleStore 6 3 (some (2, 3))) (fun _ => 0) [] 1 4 0 2).reads =
      [⟨1, 1, 0, 3, 0, 3, 6⟩, ⟨2, 3, 0, 3, 3, 9, 6⟩] ∧
    (GridValuesRun 5 (sampleStore 6 3 (some (2, 3))) (fun _ => 0) [] 1 4 0 2).fault
      = some .storeRead ∧
    2 / 2 ≠ (2 + 3 - 1) / 2 := by
  decide

/-- C8: the name "evt" is not in the catalog `["a", "b"]`, and `ProductFirstColumn`
returns column 3 (one past the position `std::find` ends at) instead of failing. -/
theorem ProductFirstColumn_absent_name_returns :
    "evt" ∉ ["a", "b"] ∧ ProductFirstColumn ["a", "b"] "evt" (-1) = .ok (3, 2) := by
  decide

/-- C9, the claim as stated fails at `r = 0`: `ColumnValues(c, 0, 0 - 1)` is the defaulted
read of the whole column, here of a table of two rows.  And on a table without rows the
defaulted request, whose resolved range `[0, -1]` is empty, ends in a division by the
chunk size zero. -/
theorem ColumnValues_row_zero_not_empty :
    ColumnValues (sampleStore 2 3 none) 0 1 0 ((0 : Int) - 1) = .ok [101, 111] ∧
    ColumnValues (sampleStore 2 3 none) 0 1 0 ((0 : Int) - 1) ≠ .ok [] ∧
    resolveLastRow (sampleStore 0 3 none) (-1) = -1 ∧
    ColumnValues (sampleStore 0 3 none) 0 1 0 (-1) = .fault .divByZero := by
  decide

theorem ColumnValues_of_le {α : Type} (s : Store α) (zero : α) (colIdx firstRow : Nat)
    (lastRow : Int) (h : toSize (resolveLastRow s lastRow) ≤ firstRow) :
    ColumnValues s zero colIdx firstRow lastRow = .ok [] := by
  unfold ColumnValues ColumnValuesTraced
  simp only [if_pos h]

/-- C9 as amended: a request whose last row, after the defaulting, is not negative and
lies before `firstRow` returns the empty sequence and does not fail; in particular
`ColumnValues(c, r, r - 1)` is empty for every row `r ≥ 1`. -/
theorem ColumnValues_empty_range {α : Type} (s : Store α) (zero : α) (colIdx : Nat) :
    (∀ r : Nat, 1 ≤ r → ColumnValues s zero colIdx r ((r : Int) - 1) = .ok []) ∧
    (∀ (firstRow : Nat) (lastRow : Int), 0 ≤ resolveLastRow s lastRow →
      resolveLastRow s lastRow < (firstRow : Int) →
      ColumnValues s zero colIdx firstRow lastRow = .ok []) := by
  have key : ∀ (firstRow : Nat) (lastRow : Int), 0 ≤ resolveLastRow s lastRow →
      resolveLastRow s lastRow < (firstRow : Int) →
      ColumnValues s zero colIdx firstRow lastRow = .ok [] := by
    intro firstRow lastRow h0 hlt
    apply ColumnValues_of_le
    unfold toSize
    omega
  refine ⟨?_, key⟩
  intro r hr
  have hres : resolveLastRow s ((r : Int) - 1) = (r : Int) - 1 := by
    unfold resolveLastRow
    rw [if_neg (by omega)]
  apply key
  · rw [hres]; omega
  · rw [hres]; omega

/-- Witness for C9 as amended: row 3 of a table of five rows. -/
theorem ColumnValues_empty_range_witness :
    ColumnValues (sampleStore 5 3 none) 0 1 3 (((3 : Nat) : Int) - 1) = .ok [] :=
  (ColumnValues_empty_range (sampleStore 5 3 none) 0 1).1 3 (by decide)

/-- C10: a call with `lastRow` negative (the omitted argument is `-1`) returns what the
call with `lastRow` set to the `int` value of `numRows - 1` returns; for a table of
`1 ≤ numRows ≤ 2 ^ 31` rows that value is `numRows - 1` itself. -/
theorem ColumnValues_default_lastRow {α : Type} (s : Store α) (zero : α)
    (colIdx firstRow : Nat) (lastRow : Int) (hneg : lastRow < 0) :
    ColumnValues s zero colIdx firstRow lastRow
        = ColumnValues s zero colIdx firstRow (toInt32 (sub64 s.numRows 1)) ∧
    (1 ≤ s.numRows → s.numRows ≤ 2 ^ 31 →
      ColumnValues s zero colIdx firstRow lastRow
        = ColumnValues s zero colIdx firstRow ((s.numRows : Int) - 1)) := by
  have hres : ∀ l : Int, resolveLastRow s l = resolveLastRow s lastRow →
      ColumnValues s zero colIdx firstRow lastRow = ColumnValues s zero colIdx firstRow l := by
    intro l hl
    unfold ColumnValues ColumnValuesTraced
    rw [hl]
  have hL : resolveLastRow s lastRow = toInt32 (sub64 s.numRows 1) := by
    unfold resolveLastRow
    rw [if_pos hneg]
  constructor
  · apply hres
    rw [hL]
    unfold resolveLastRow
    split
    · rfl
    · rfl
  · intro h1 h2
    apply hres
    rw [hL, sub64_eq h1 (by omega), toInt32_eq (by omega)]
    unfold resolveLastRow
    rw [if_neg (by omega)]
    omega

/-- Witness for C10: a table of six rows in chunks of two rows, called with `-1`. -/
theorem ColumnValues_default_lastRow_witness :
    ColumnValues (sampleStore 6 3 (some (2, 3))) 0 1 0 (-1)
        = ColumnValues (sampleStore 6 3 (some (2, 3))) 0 1 0 (toInt32 (sub64 6 1)) ∧
    ColumnValues (sampleStore 6 3 (some (2, 3))) 0 1 0 (-1)
        = ColumnValues (sampleStore 6 3 (some (2, 3))) 0 1 0 (((6 : Nat) : Int) - 1) :=
  ⟨(ColumnValues_default_lastRow (sampleStore 6 3 (some (2, 3))) 0 1 0 (-1) (by decide)).1,
    (ColumnValues_default_lastRow (sampleStore 6 3 (some (2, 3))) 0 1 0 (-1) (by decide)).2
      (by decide) (by decide)⟩

/-! ## The event row index -/

theorem rowAt_of_lt (stray : Nat → Nat) (m : List Nat) (i : Nat) (h : i < m.length) :
    m[i]? = some (rowAt stray m i) := by
  unfold rowAt
  rw [List.getElem?_eq_getElem h]

theorem rowAt_mem (stray : Nat → Nat) (m : List Nat) (i : Nat) (h : i < m.length) :
    rowAt stray m i ∈ m := by
  have := rowAt_of_lt stray m i h
  exact List.getElem?_mem this

theorem rowAt_eq_iff (stray : Nat → Nat) (m : List Nat) (i v : Nat) (h : i < m.length) :
    rowAt stray m i = v ↔ m[i]? = some v := by
  rw [rowAt_of_lt stray m i h]
  simp

theorem scanEnds_absent (stray : Nat → Nat) (m : List Nat) (event : Nat)
    (hlen : m.length < 2 ^ 64) (habs : event ∉ m) :
    ∀ todo counter, counter + todo ≤ m.length / 2 →
      scanEnds stray m event todo counter = (-1, -1) := by
  intro todo
  induction todo with
  | zero => intro counter _; rfl
  | succ todo ih =>
    intro counter h
    have hhalf : m.length / 2 ≤ m.length := Nat.div_le_self _ _
    have hback : sub64 (sub64 m.length counter) 1 = m.length - counter - 1 := by
      rw [sub64_eq (by omega) hlen, sub64_eq (by omega) (by omega)]
    have h1 : rowAt stray m counter ≠ event := by
      intro he
      exact habs (he ▸ rowAt_mem stray m counter (by omega))
    have h2 : rowAt stray m (m.length - counter - 1) ≠ event := by
      intro he
      exact habs (he ▸ rowAt_mem stray m _ (by omega))
    simp only [scanEnds]
    rw [hback, if_neg h1, if_neg h2, add64_eq (by omega)]
    exact ih (counter + 1) (by omega)

/-- C4: for an id that occurs nowhere in the event row map, `EventRowEdges` returns the
pair `(-1, -1)`. -/
theorem EventRowEdges_absent (stray : Nat → Nat) (m : List Nat) (event : Nat)
    (hlen : m.length < 2 ^ 64) (habs : event ∉ m) :
    EventRowEdges stray m event = .ok (-1, -1) := by
  unfold EventRowEdges
  rw [scanEnds_absent stray m event hlen habs (m.length / 2) 0 (by omega)]
  simp

/-- Witness for C4: the id 6 in the map `[5, 5, 5, 7, 7, 9]`. -/
theorem EventRowEdges_absent_witness :
    EventRowEdges (fun _ => 0) [5, 5, 5, 7, 7, 9] 6 = .ok (-1, -1) :=
  EventRowEdges_absent (fun _ => 0) [5, 5, 5, 7, 7, 9] 6 (by decide) (by decide)

/-- C3: the id 2 occurs in the map `[1, 2, 3]` (in its middle row), and `EventRowEdges`
returns the not-found pair: the scan runs `size / 2` times and never reads the middle
row of a map of odd size. -/
theorem EventRowEdges_misses_middle_row (stray : Nat → Nat) :
    2 ∈ [1, 2, 3] ∧ EventRowEdges stray [1, 2, 3] 2 = .ok (-1, -1) := by
  refine ⟨by decide, ?_⟩
  rfl

/-- What the two-ended scan leaves in `firstRow` and `lastRow`: nothing found and no
match among the rows read, or the first match from the front, or the first match from
the back. -/
theorem scanEnds_spec (stray : Nat → Nat) (m : List Nat) (event : Nat)
    (hlen : m.length ≤ 2 ^ 31) :
    ∀ todo counter, counter + todo ≤ m.length / 2 →
      (scanEnds stray m event todo counter = (-1, -1) ∧
        ∀ c, counter ≤ c → c < counter + todo →
          m[c]? ≠ some event ∧ m[m.length - 1 - c]? ≠ some event) ∨
      (∃ k, counter ≤ k ∧ k < counter + todo ∧
        scanEnds stray m event todo counter = ((k : Int), -1) ∧ m[k]? = some event ∧
        ∀ c, counter ≤ c → c < k →
          m[c]? ≠ some event ∧ m[m.length - 1 - c]? ≠ some event) ∨
      (∃ k, counter ≤ k ∧ k < counter + todo ∧
        scanEnds stray m event todo counter = (-1, ((m.length - 1 - k : Nat) : Int)) ∧
        m[m.length - 1 - k]? = some event ∧ m[k]? ≠ some event ∧
        ∀ c, counter ≤ c → c < k →
          m[c]? ≠ some event ∧ m[m.length - 1 - c]? ≠ some event) := by
  intro todo
  induction todo with
  | zero =>
    intro counter _
    left
    exact ⟨rfl, by intro c h1 h2; omega⟩
  | succ todo ih =>
    intro counter h
    have hhalf : m.length / 2 ≤ m.length := Nat.div_le_self _ _
    have hback : sub64 (sub64 m.length counter) 1 = m.length - 1 - counter := by
      rw [@sub64_eq m.length counter (by omega) (by omega),
        @sub64_eq (m.length - counter) 1 (by omega) (by omega)]
      omega
    simp only [scanEnds]
    rw [hback]
    by_cases h1 : rowAt stray m counter = event
    · rw [if_pos h1]
      right; left
      refine ⟨counter, le_refl _, by omega, ?_, ?_, by intro c hc1 hc2; omega⟩
      · rw [toInt32_eq (by omega)]
      · exact (rowAt_eq_iff stray m counter event (by omega)).1 h1
    · rw [if_neg h1]
      have h1b : m[counter]? ≠ some event :=
        fun he => h1 ((rowAt_eq_iff stray m counter event (by omega)).2 he)
      by_cases h2 : rowAt stray m (m.length - 1 - counter) = event
      · rw [if_pos h2]
        right; right
        refine ⟨counter, le_refl _, by omega, ?_, ?_, h1b, by intro c hc1 hc2; omega⟩
        · rw [toInt32_eq (by omega)]
        · exact (rowAt_eq_iff stray m _ event (by omega)).1 h2
      · rw [if_neg h2, add64_eq (by omega)]
        have h2b : m[m.length - 1 - counter]? ≠ some event :=
          fun he => h2 ((rowAt_eq_iff stray m _ event (by omega)).2 he)
        have hstep : ∀ c, counter ≤ c → c < counter + 1 →
            m[c]? ≠ some event ∧ m[m.length - 1 - c]? ≠ some event := by
          intro c hc1 hc2
          have : c = counter := by omega
          subst this
          exact ⟨h1b, h2b⟩
        rcases ih (counter + 1) (by omega) with ⟨hr, hall⟩ | ⟨k, hk1, hk2, hr, hk, hall⟩ |
            ⟨k, hk1, hk2, hr, hk, hk3, hall⟩
        · left
          refine ⟨hr, ?_⟩
          intro c hc1 hc2
          by_cases hc : c < counter + 1
          · exact hstep c hc1 hc
          · exact hall c (by omega) (by omega)
        · right; left
          refine ⟨k, by omega, by omega, hr, hk, ?_⟩
          intro c hc1 hc2
          by_cases hc : c < counter + 1
          · exact hstep c hc1 hc
          · exact hall c (by omega) hc2
        · right; right
          refine ⟨k, by omega, by omega, hr, hk, hk3, ?_⟩
          intro c hc1 hc2
          by_cases hc : c < counter + 1
          · exact hstep c hc1 hc
          · exact hall c (by omega) hc2

/-- The outward walk towards higher rows, started at row `x`: it stops at the first row
`y ≥ x` that does not hold the event, or at the end of the map. -/
theorem walkEdge_up (stray : Nat → Nat) (m : List Nat) (event : Nat)
    (hlen : m.length < 2 ^ 31) :
    ∀ (fuel x : Nat), x ≤ m.length → m.length + 1 ≤ fuel + x →
      ∃ y : Nat, walkEdge stray m event 1 fuel (x : Int) = some (y : Int) ∧ x ≤ y ∧
        y ≤ m.length ∧ (∀ i, x ≤ i → i < y → m[i]? = some event) ∧
        (y < m.length → m[y]? ≠ some event) := by
  intro fuel
  induction fuel with
  | zero => intro x h1 h2; omega
  | succ fuel ih =>
    intro x hx hfuel
    simp only [walkEdge]
    have hsz : toSize (x : Int) = x := toSize_natCast (by omega)
    have hn : toInt32 m.length = (m.length : Int) := toInt32_eq hlen
    rw [hsz, hn]
    by_cases hc : rowAt stray m x = event ∧ (x : Int) ≥ 0 ∧ (x : Int) < (m.length : Int)
    · rw [if_pos hc]
      obtain ⟨hc1, _, hc3⟩ := hc
      have hxlt : x < m.length := by omega
      obtain ⟨y, hy, hy1, hy2, hy3, hy4⟩ := ih (x + 1) (by omega) (by omega)
      refine ⟨y, ?_, by omega, hy2, ?_, hy4⟩
      · rw [← hy]; congr 1
      · intro i hi1 hi2
        by_cases hix : i = x
        · subst hix
          exact (rowAt_eq_iff stray m i event hxlt).1 hc1
        · exact hy3 i (by omega) hi2
    · rw [if_neg hc]
      refine ⟨x, rfl, le_refl _, hx, by intro i h1 h2; omega, ?_⟩
      intro hxlt he
      apply hc
      exact ⟨(rowAt_eq_iff stray m x event hxlt).2 he, by omega, by omega⟩

/-- The outward walk towards lower rows, started at row `x`: it stops at the first row
`y ≤ x` that does not hold the event, or at `-1`. -/
theorem walkEdge_down (stray : Nat → Nat) (m : List Nat) (event : Nat)
    (hlen : m.length < 2 ^ 31) :
    ∀ (fuel : Nat) (x : Int), -1 ≤ x → x < (m.length : Int) → x + 2 ≤ (fuel : Int) →
      ∃ y : Int, walkEdge stray m event (-1) fuel x = some y ∧ -1 ≤ y ∧ y ≤ x ∧
        (∀ i : Nat, y < (i : Int) → (i : Int) ≤ x → m[i]? = some event) ∧
        (0 ≤ y → m[y.toNat]? ≠ some event) := by
  intro fuel
  induction fuel with
  | zero => intro x h1 h2 h3; omega
  | succ fuel ih =>
    intro x hx1 hx2 hfuel
    simp only [walkEdge]
    have hn : toInt32 m.length = (m.length : Int) := toInt32_eq hlen
    rw [hn]
    by_cases hc : rowAt stray m (toSize x) = event ∧ x ≥ 0 ∧ x < (m.length : Int)
    · rw [if_pos hc]
      obtain ⟨hc1, hc2, _⟩ := hc
      have hsz : toSize x = x.toNat := by unfold toSize; omega
      rw [hsz] at hc1
      obtain ⟨y, hy, hy1, hy2, hy3, hy4⟩ := ih (x + -1) (by omega) (by omega) (by omega)
      refine ⟨y, hy, hy1, by omega, ?_, hy4⟩
      intro i hi1 hi2
      by_cases hix : (i : Int) = x
      · have : x.toNat = i := by omega
        rw [this] at hc1
        exact (rowAt_eq_iff stray m i event (by omega)).1 hc1
      · exact hy3 i hi1 (by omega)
    · rw [if_neg hc]
      refine ⟨x, rfl, hx1, le_refl _, by intro i h1 h2; omega, ?_⟩
      intro hx0 he
      apply hc
      have hsz : toSize x = x.toNat := by unfold toSize; omega
      rw [hsz]
      exact ⟨(rowAt_eq_iff stray m _ event (by omega)).2 he, by omega, hx2⟩

/-- What `EventRowEdges` returns on a map of fewer than `2 ^ 31` rows: the not-found
pair when no row read by the scan holds the event, else the bounds of a maximal block of
rows of the event that starts at the first or ends at the last row of the event. -/
theorem EventRowEdges_cases (stray : Nat → Nat) (m : List Nat) (event : Nat)
    (hlen : m.length < 2 ^ 31) :
    (EventRowEdges stray m event = .ok (-1, -1) ∧
      ∀ c, c < m.length / 2 → m[c]? ≠ some event ∧ m[m.length - 1 - c]? ≠ some event) ∨
    ∃ f l : Nat, EventRowEdges stray m event = .ok ((f : Int), (l : Int)) ∧ f ≤ l ∧
      l < m.length ∧ (∀ i, f ≤ i → i ≤ l → m[i]? = some event) ∧
      (0 < f → m[f - 1]? ≠ some event) ∧ (l + 1 < m.length → m[l + 1]? ≠ some event) ∧
      ((∀ i, i < f → m[i]? ≠ some event) ∨
        (∀ i, l < i → i < m.length → m[i]? ≠ some event)) := by
  have hhalf : m.length / 2 ≤ m.length := Nat.div_le_self _ _
  rcases scanEnds_spec stray m event (Nat.le_of_lt hlen) (m.length / 2) 0 (by omega) with
    ⟨hr, hall⟩ | ⟨k, _, hk2, hr, hk, hall⟩ | ⟨k, _, hk2, hr, hk, hk3, hall⟩
  · left
    refine ⟨?_, fun c hc => hall c (by omega) (by omega)⟩
    unfold EventRowEdges
    rw [hr]
    simp
  · right
    obtain ⟨y, hy, hy1, hy2, hy3, hy4⟩ :=
      walkEdge_up stray m event hlen (m.length + 1) k (by omega) (by omega)
    have hyk : k < y := by
      rcases Nat.lt_or_ge k y with h | h
      · exact h
      · have : y = k := by omega
        subst this
        exact absurd hk (hy4 (by omega))
    refine ⟨k, y - 1, ?_, by omega, by omega, ?_, ?_, ?_, Or.inl ?_⟩
    · have hk0 : (k : Int) ≥ 0 := by omega
      have hgo : ¬ ((k : Int) < 0 ∨ (y : Int) - 1 < 0 ∨ (y : Int) - 1 < (k : Int)) := by omega
      unfold EventRowEdges
      rw [hr]
      simp only [hk0, if_true, if_false, hy, hgo]
      rw [if_neg (by omega)]
      congr 2
      omega
    · intro i hi1 hi2
      exact hy3 i hi1 (by omega)
    · intro hf
      exact (hall (k - 1) (by omega) (by omega)).1
    · intro hl
      have : y - 1 + 1 = y := by omega
      rw [this]
      exact hy4 (by omega)
    · intro i hi
      exact (hall i (by omega) hi).1
  · right
    obtain ⟨y, hy, hy1, hy2, hy3, hy4⟩ :=
      walkEdge_down stray m event hlen (m.length + 1) ((m.length - 1 - k : Nat) : Int)
        (by omega) (by omega) (by omega)
    have hyk : y < ((m.length - 1 - k : Nat) : Int) := by
      rcases lt_or_ge y ((m.length - 1 - k : Nat) : Int) with h | h
      · exact h
      · have hyx : y = ((m.length - 1 - k : Nat) : Int) := by omega
        have h0 : 0 ≤ y := by omega
        have h4 := hy4 h0
        rw [hyx, Int.toNat_ofNat] at h4
        exact absurd hk h4
    refine ⟨(y + 1).toNat, m.length - 1 - k, ?_, by omega, by omega, ?_, ?_, ?_, Or.inr ?_⟩
    · have hk0 : ¬ ((-1 : Int) ≥ 0) := by omega
      have hgo : ¬ (y - -1 < 0 ∨ ((m.length - 1 - k : Nat) : Int) < 0 ∨
          ((m.length - 1 - k : Nat) : Int) < y - -1) := by omega
      unfold EventRowEdges
      rw [hr]
      simp only [hk0, if_true, if_false, hy, hgo]
      rw [if_neg (by omega)]
      congr 2
      omega
    · intro i hi1 hi2
      exact hy3 i (by omega) (by omega)
    · intro hf
      have h0 : 0 ≤ y := by omega
      have : (y + 1).toNat - 1 = y.toNat := by omega
      rw [this]
      exact hy4 h0
    · intro hl
      have hk0 : 0 < k := by omega
      have := (hall (k - 1) (by omega) (by omega)).2
      have he : m.length - 1 - (k - 1) = m.length - 1 - k + 1 := by omega
      rw [he] at this
      exact this
    · intro i hi1 hi2
      have := (hall (m.length - 1 - i) (by omega) (by omega)).2
      have he : m.length - 1 - (m.length - 1 - i) = i := by omega
      rw [he] at this
      exact this

/-- C7, the claim as stated fails: in the map `[5, 7, 5]` the rows of the id 5 are not
one contiguous run, and `EventRowEdges` returns the range `(0, 0)` instead of aborting. -/
theorem EventRowEdges_split_event_no_abort :
    ¬ contiguousRun [5, 7, 5] 5 ∧ EventRowEdges (fun _ => 0) [5, 7, 5] 5 = .ok (0, 0) ∧
      EventRowEdges (fun _ => 0) [5, 7, 5] 5 ≠ .fault .aborted := by
  refine ⟨?_, by decide, by decide⟩
  intro h
  have := h 0 1 2 (by decide) (by decide) (by decide) (by decide)
  exact absurd this (by decide)

/-- C7 as amended: when the rows of the id are not one contiguous run (in a map of fewer
than `2 ^ 31` rows), `EventRowEdges` does not abort; it returns the bounds `(f, l)`,
`0 ≤ f ≤ l < size`, of a block of rows that all hold the id, and at least one more row
of the id lies outside that block. -/
theorem EventRowEdges_split_event_returns (stray : Nat → Nat) (m : List Nat) (event : Nat)
    (hlen : m.length < 2 ^ 31) (hsplit : ¬ contiguousRun m event) :
    ∃ f l : Nat, EventRowEdges stray m event = .ok ((f : Int), (l : Int)) ∧ f ≤ l ∧
      l < m.length ∧ (∀ i, f ≤ i → i ≤ l → m[i]? = some event) ∧
      ∃ j, (j < f ∨ l < j) ∧ m[j]? = some event := by
  have hsome : ∀ {i : Nat}, m[i]? = some event → i < m.length := by
    intro i hi
    by_contra hge
    rw [List.getElem?_eq_none (by omega)] at hi
    cases hi
  rcases EventRowEdges_cases stray m event hlen with ⟨_, hall⟩ | ⟨f, l, hr, h1, h2, h3, _, _, _⟩
  · exfalso
    apply hsplit
    intro i j k hij hjk hi hk
    have hkn := hsome hk
    have hscan : ∀ p, p < m.length → m[p]? = some event → p = m.length / 2 := by
      intro p hp hpe
      by_contra hne
      rcases Nat.lt_or_ge p (m.length / 2) with h | h
      · exact (hall p h).1 hpe
      · have := (hall (m.length - 1 - p) (by omega)).2
        have he : m.length - 1 - (m.length - 1 - p) = p := by omega
        rw [he] at this
        exact this hpe
    have := hscan i (by omega) hi
    have := hscan k hkn hk
    omega
  · refine ⟨f, l, hr, h1, h2, h3, ?_⟩
    by_contra hno
    apply hsplit
    intro i j k hij hjk hi hk
    have hin : ∀ p, m[p]? = some event → f ≤ p ∧ p ≤ l := by
      intro p hp
      by_contra hout
      exact hno ⟨p, by omega, hp⟩
    have := hin i hi
    have := hin k hk
    exact h3 j (by omega) (by omega)

/-- Witness for C7 as amended: the id 5 in the map `[5, 7, 5]`. -/
theorem EventRowEdges_split_event_returns_witness :
    ∃ f l : Nat, EventRowEdges (fun _ => 0) [5, 7, 5] 5 = .ok ((f : Int), (l : Int)) ∧ f ≤ l ∧
      l < [5, 7, 5].length ∧ (∀ i, f ≤ i → i ≤ l → [5, 7, 5][i]? = some 5) ∧
      ∃ j, (j < f ∨ l < j) ∧ [5, 7, 5][j]? = some 5 :=
  EventRowEdges_split_event_returns (fun _ => 0) [5, 7, 5] 5 (by decide)
    (fun h => absurd (h 0 1 2 (by decide) (by decide) (by decide) (by decide)) (by decide))

/-! ## Claims on repeated calls, the scenario and the shape of the reads -/

/-- C11: rows 1 to 4 and columns 0 to 2 of a 6 × 3 table in chunks of two rows, read
into a storage of twelve stale elements `9` and into one of twelve stale elements `8`:
the second read is rejected, the call returns no contents, and of the twelve elements
of the requested shape only the three of row 1 were written; the other nine keep the
stale content, so the two storages differ. -/
theorem GridValues_stale_after_rejected_read :
    GridValuesRun 5 (sampleStore 6 3 (some (2, 3))) (fun _ => 0) (List.replicate 12 9) 1 4 0 2 =
      ⟨[⟨1, 1, 0, 3, 0, 3, 6⟩, ⟨2, 3, 0, 3, 3, 9, 6⟩],
        [110, 111, 112, 9, 9, 9, 9, 9, 9, 9, 9, 9], some .storeRead⟩ ∧
    GridValuesRun 5 (sampleStore 6 3 (some (2, 3))) (fun _ => 0) (List.replicate 12 8) 1 4 0 2 =
      ⟨[⟨1, 1, 0, 3, 0, 3, 6⟩, ⟨2, 3, 0, 3, 3, 9, 6⟩],
        [110, 111, 112, 8, 8, 8, 8, 8, 8, 8, 8, 8], some .storeRead⟩ ∧
    GridValues 5 (sampleStore 6 3 (some (2, 3))) (fun _ => 0) (List.replicate 12 9) 1 4 0 2
      = .fault .storeRead ∧
    (sampleStore 6 3 (some (2, 3))).rect 1 4 0 3
      = [110, 111, 112, 120, 121, 122, 130, 131, 132, 140, 141, 142] := by
  decide

/-- C12: the scenario of the specification.  The event row map of the table is
`[5, 5, 5, 7, 7, 9]`; on it `EventRowEdges(7)` is `(3, 4)` and `EventRowEdges(9)` is
`(5, 5)`, and `Events()` is `{5, 7, 9}`. -/
theorem scenario_event_ranges :
    EventRowMap scenarioStore 0 id ["event", "a", "b", "c"] "event" (-1) []
      = .ok [5, 5, 5, 7, 7, 9] ∧
    (∀ stray, EventRowEdges stray [5, 5, 5, 7, 7, 9] 7 = .ok (3, 4)) ∧
    (∀ stray, EventRowEdges stray [5, 5, 5, 7, 7, 9] 9 = .ok (5, 5)) ∧
    Events scenarioStore 0 id ["event", "a", "b", "c"] "event" (-1) [] = .ok {5, 7, 9} := by
  refine ⟨by decide, fun _ => rfl, fun _ => rfl, by decide⟩

/-- C13: a 10 × 3 table in chunks of five rows, rows 1 to 4 requested: the chunk size the
loop works with is capped at the four requested rows, the reads are rows 1 to 3 and
row 4, and the second read starts at row 4, which is not a multiple of the five rows of
a store chunk. -/
theorem GridValues_read_off_chunk_start :
    GridValues 6 (sampleStore 10 3 (some (5, 3))) (fun _ => 0) [] 1 4 0 2 =
      .ok ([110, 111, 112, 120, 121, 122, 130, 131, 132, 140, 141, 142],
        [⟨1, 3, 0, 3, 0, 9, 12⟩, ⟨4, 1, 0, 3, 9, 3, 12⟩]) ∧
    4 % 5 ≠ 0 := by
  decide

/-- C15: two calls whose memory dataspace does not fit the file selection.  One column,
rows 1 to 4 of a table in chunks of two rows: the dataspace has rank 1 and two elements
and is not resized, while the first read selects 1 element of the file.  Three columns:
the second read selects 3 × 3 = 9 elements in a dataspace created with 2 × 3 = 6
elements.  Both reads are rejected. -/
theorem GridValues_memspace_mismatch :
    (GridValuesRun 5 (sampleStore 6 3 (some (2, 3))) (fun _ => 0) [] 1 4 1 1).reads =
      [⟨1, 1, 1, 1, 0, 2, 2⟩] ∧
    (GridValuesRun 5 (sampleStore 6 3 (some (2, 3))) (fun _ => 0) [] 1 4 1 1).fault
      = some .storeRead ∧
    (GridValuesRun 5 (sampleStore 6 3 (some (2, 3))) (fun _ => 0) [] 1 4 0 2).reads =
      [⟨1, 1, 0, 3, 0, 3, 6⟩, ⟨2, 3, 0, 3, 3, 9, 6⟩] ∧
    (GridValuesRun 5 (sampleStore 6 3 (some (2, 3))) (fun _ => 0) [] 1 4 0 2).fault
      = some .storeRead ∧
    (2 : Nat) ≠ 1 * 1 ∧ ¬ ((9 : Nat) ≤ 6) := by
  decide

/-- C19: on the map `[5, 5]` and the id 5 the scan reads index 0 and the walk reads the
indices 0, 1 and 2; index 2 lies behind the last element of the map, and the call
returns `(0, 1)`. -/
theorem EventRowEdges_reads_past_end :
    EventRowEdgesReads (fun _ => 0) [5, 5] 5 = [0, 0, 1, 2] ∧
    ([5, 5] : List Nat)[2]? = none ∧
    EventRowEdges (fun _ => 0) [5, 5] 5 = .ok (0, 1) := by
  decide


/-! ## The consistency check of `EventRowEdges` -/

/-- On a map of exactly `2 ^ 31` rows `static_cast<int>(size())` is negative, the outward
walk does not move, and every call that found an anchor ends in `abort()`. -/
theorem EventRowEdges_at_int_limit (stray : Nat → Nat) (m : List Nat) (event : Nat)
    (hlen : m.length = 2 ^ 31) :
    (EventRowEdges stray m event = .ok (-1, -1) ∧
      ∀ c, c < m.length / 2 → m[c]? ≠ some event ∧ m[m.length - 1 - c]? ≠ some event) ∨
    EventRowEdges stray m event = .fault .aborted := by
  have hneg : toInt32 m.length = -2147483648 := by rw [hlen]; decide
  have hhalf : m.length / 2 ≤ m.length := Nat.div_le_self _ _
  rcases scanEnds_spec stray m event (Nat.le_of_eq hlen) (m.length / 2) 0 (by omega) with
    ⟨hr, hall⟩ | ⟨k, _, hk2, hr, _, _⟩ | ⟨k, _, hk2, hr, _, _, _⟩
  · left
    refine ⟨?_, fun c hc => hall c (by omega) (by omega)⟩
    unfold EventRowEdges
    rw [hr]
    simp
  · right
    have hk0 : (k : Int) ≥ 0 := by omega
    have hw : walkEdge stray m event 1 (m.length + 1) (k : Int) = some (k : Int) := by
      simp only [walkEdge]
      rw [hneg, if_neg (by omega)]
    have hgo : (k : Int) < 0 ∨ (k : Int) - 1 < 0 ∨ (k : Int) - 1 < (k : Int) := by omega
    unfold EventRowEdges
    rw [hr]
    simp only [hk0, if_true, if_false, hw, hgo]
    rw [if_neg (by omega)]
  · right
    have hk0 : ¬ ((-1 : Int) ≥ 0) := by omega
    have hw : walkEdge stray m event (-1) (m.length + 1) ((m.length - 1 - k : Nat) : Int)
        = some ((m.length - 1 - k : Nat) : Int) := by
      simp only [walkEdge]
      rw [hneg, if_neg (by omega)]
    have hgo : ((m.length - 1 - k : Nat) : Int) - -1 < 0 ∨ ((m.length - 1 - k : Nat) : Int) < 0 ∨
        ((m.length - 1 - k : Nat) : Int) < ((m.length - 1 - k : Nat) : Int) - -1 := by omega
    unfold EventRowEdges
    rw [hr]
    simp only [hk0, if_true, if_false, hw, hgo]
    rw [if_neg (by omega)]

/-- C16: on a map of at most `2 ^ 31` rows (the maps `EventRowMap` can build), with or
without the contiguity invariant, a returned pair `(f, l)` other than `(-1, -1)` has
`0 ≤ f ≤ l < size`, every row in `[f, l]` holds the id, the rows `f - 1` and `l + 1`
(when in the map) do not, and `f` is the first or `l` is the last row of the id. -/
theorem EventRowEdges_returned_range (stray : Nat → Nat) (m : List Nat) (event : Nat)
    (f l : Int) (hlen : m.length ≤ 2 ^ 31)
    (hret : EventRowEdges stray m event = .ok (f, l)) (hne : (f, l) ≠ (-1, -1)) :
    0 ≤ f ∧ f ≤ l ∧ l < (m.length : Int) ∧
      (∀ i : Nat, f ≤ (i : Int) → (i : Int) ≤ l → m[i]? = some event) ∧
      (0 < f → m[(f - 1).toNat]? ≠ some event) ∧
      (l + 1 < (m.length : Int) → m[(l + 1).toNat]? ≠ some event) ∧
      ((∀ i : Nat, (i : Int) < f → m[i]? ≠ some event) ∨
        (∀ i : Nat, l < (i : Int) → i < m.length → m[i]? ≠ some event)) := by
  rcases Nat.lt_or_ge m.length (2 ^ 31) with hlt | hge
  · rcases EventRowEdges_cases stray m event hlt with ⟨hr, _⟩ |
      ⟨a, b, hr, h1, h2, h3, h4, h5, h6⟩
    · rw [hr] at hret
      injection hret with h
      exact absurd h.symm hne
    · rw [hr] at hret
      injection hret with h
      injection h with hf hl
      subst hf
      subst hl
      refine ⟨by omega, by omega, by omega, ?_, ?_, ?_, ?_⟩
      · intro i hi1 hi2
        exact h3 i (by omega) (by omega)
      · intro hpos
        have : ((a : Int) - 1).toNat = a - 1 := by omega
        rw [this]
        exact h4 (by omega)
      · intro hnext
        have : ((b : Int) + 1).toNat = b + 1 := by omega
        rw [this]
        exact h5 (by omega)
      · rcases h6 with h | h
        · left
          intro i hi
          exact h i (by omega)
        · right
          intro i hi1 hi2
          exact h i (by omega) hi2
  · rcases EventRowEdges_at_int_limit stray m event (by omega) with ⟨hr, _⟩ | hr
    · rw [hr] at hret
      injection hret with h
      exact absurd h.symm hne
    · rw [hr] at hret
      cases hret

/-- Witness for C16: the id 7 in the map `[5, 5, 5, 7, 7, 9]`, with the range `(3, 4)`. -/
theorem EventRowEdges_returned_range_witness :
    (0 : Int) ≤ 3 ∧ (3 : Int) ≤ 4 ∧ (4 : Int) < (([5, 5, 5, 7, 7, 9] : List Nat).length : Int) ∧
      (∀ i : Nat, (3 : Int) ≤ (i : Int) → (i : Int) ≤ 4 →
        ([5, 5, 5, 7, 7, 9] : List Nat)[i]? = some 7) ∧
      ((0 : Int) < 3 → ([5, 5, 5, 7, 7, 9] : List Nat)[((3 : Int) - 1).toNat]? ≠ some 7) ∧
      ((4 : Int) + 1 < (([5, 5, 5, 7, 7, 9] : List Nat).length : Int) →
        ([5, 5, 5, 7, 7, 9] : List Nat)[((4 : Int) + 1).toNat]? ≠ some 7) ∧
      ((∀ i : Nat, (i : Int) < 3 → ([5, 5, 5, 7, 7, 9] : List Nat)[i]? ≠ some 7) ∨
        (∀ i : Nat, (4 : Int) < (i : Int) → i < ([5, 5, 5, 7, 7, 9] : List Nat).length →
          ([5, 5, 5, 7, 7, 9] : List Nat)[i]? ≠ some 7)) :=
  EventRowEdges_returned_range (fun _ => 0) [5, 5, 5, 7, 7, 9] 7 3 4 (by decide) (by decide)
    (by decide)

/-- C20, the claim as stated fails on a map of `2 ^ 31` rows: with every row holding the
id 5 the anchor is row 0, `static_cast<int>(size())` is `-2 ^ 31`, the walk stops at
once, `lastRow` becomes `-1` and the consistency check ends the call in `abort()`. -/
theorem EventRowEdges_check_fires_at_int_limit :
    EventRowEdges (fun _ => 0) (List.replicate (2 ^ 31) 5) 5 = .fault .aborted := by
  have hlen : (List.replicate (2 ^ 31) 5).length = 2 ^ 31 := List.length_replicate _ _
  rcases EventRowEdges_at_int_limit (fun _ => 0) (List.replicate (2 ^ 31) 5) 5 hlen with
    ⟨_, hall⟩ | h
  · exfalso
    have h0 := (hall 0 (by rw [hlen]; decide)).1
    apply h0
    rw [List.getElem?_replicate]
    simp
  · exact h

/-- C20 as amended: on a map of fewer than `2 ^ 31` rows the consistency check never
fires and the walk never runs out of its budget: `EventRowEdges` returns a pair. -/
theorem EventRowEdges_returns_pair (stray : Nat → Nat) (m : List Nat) (event : Nat)
    (hlen : m.length < 2 ^ 31) :
    ∃ f l : Int, EventRowEdges stray m event = .ok (f, l) := by
  rcases EventRowEdges_cases stray m event hlen with ⟨hr, _⟩ | ⟨a, b, hr, _⟩
  · exact ⟨-1, -1, hr⟩
  · exact ⟨a, b, hr⟩

/-- Witness for C20 as amended: the id 9 in the map `[5, 5, 5, 7, 7, 9]`. -/
theorem EventRowEdges_returns_pair_witness :
    ∃ f l : Int, EventRowEdges (fun _ => 0) [5, 5, 5, 7, 7, 9] 9 = .ok (f, l) :=
  EventRowEdges_returns_pair (fun _ => 0) [5, 5, 5, 7, 7, 9] 9 (by decide)

/-! ## The number of reads of `GridValues` -/

/-- C18: rows 1 to 4 of a 6 × 3 table in chunks of two rows: the chunk size the call
works with is 2 and `endRow / cs - startRow / cs + 1` is 3, but the loop ends after two
reads: the second read is rejected by the store and the call ends in that fault. -/
theorem GridValues_reads_cut_short :
    chunkSizeFor (sampleStore 6 3 (some (2, 3))) (4 - 1 + 1) = 2 ∧
    4 / 2 - 1 / 2 + 1 = 3 ∧
    (GridValuesRun 5 (sampleStore 6 3 (some (2, 3))) (fun _ => 0) [] 1 4 0 2).reads.length = 2 ∧
    (GridValuesRun 5 (sampleStore 6 3 (some (2, 3))) (fun _ => 0) [] 1 4 0 2).fault
      = some .storeRead ∧
    GridValues 5 (sampleStore 6 3 (some (2, 3))) (fun _ => 0) [] 1 4 0 2 = .fault .storeRead := by
  decide

/-! ## The reads of `ColumnValues` -/

/-- An iteration of the loop of `ColumnValues` reads `columnRows` rows from row
`columnStart` on, into the column at index `columnStart`. -/
theorem columnLoop_step {α : Type} (s : Store α) (colIdx firstRow nRows chunkSize : Nat)
    (todo chunkIdx memSel : Nat) (column : List α) (trace : List ColRead) :
    columnLoop s colIdx firstRow nRows chunkSize (todo + 1) chunkIdx memSel column trace =
      match readInto s column (columnStart firstRow chunkSize chunkIdx)
          (columnStart firstRow chunkSize chunkIdx)
          (columnRows firstRow nRows chunkSize chunkIdx) colIdx 1 with
      | .fault f => .fault f
      | .ok out =>
        columnLoop s colIdx firstRow nRows chunkSize todo (add64 chunkIdx 1)
          (if columnRows firstRow nRows chunkSize chunkIdx ≠ chunkSize then
            columnRows firstRow nRows chunkSize chunkIdx else memSel) out
          (trace ++ [⟨columnStart firstRow chunkSize chunkIdx,
            columnRows firstRow nRows chunkSize chunkIdx,
            if columnRows firstRow nRows chunkSize chunkIdx ≠ chunkSize then
              columnRows firstRow nRows chunkSize chunkIdx else memSel⟩]) := by
  rfl

theorem columnRows_le (firstRow nRows chunkSize chunkIdx : Nat) :
    columnRows firstRow nRows chunkSize chunkIdx ≤ chunkSize := by
  unfold columnRows
  exact Nat.min_le_left _ _

theorem chunkSizeFor_le {α : Type} (s : Store α) (nRows : Nat) :
    chunkSizeFor s nRows ≤ nRows ∧ ∀ d, s.chunk = some d → chunkSizeFor s nRows ≤ d.1 := by
  unfold chunkSizeFor
  cases hc : s.chunk with
  | none => exact ⟨le_refl _, fun d hd => by cases hd⟩
  | some d0 =>
    simp only
    constructor
    · split <;> omega
    · intro d hd
      injection hd with hd
      subst hd
      split <;> omega

/-- Every read in the trace of a returning run of the loop of `ColumnValues` requests at
most `chunkSize` rows. -/
theorem columnLoop_reads_le {α : Type} (s : Store α) (colIdx firstRow nRows chunkSize : Nat) :
    ∀ (todo chunkIdx memSel : Nat) (column : List α) (trace : List ColRead)
      (out : List α) (reads : List ColRead),
      (∀ rd ∈ trace, rd.chunkRows ≤ chunkSize) →
      columnLoop s colIdx firstRow nRows chunkSize todo chunkIdx memSel column trace
        = .ok (out, reads) →
      ∀ rd ∈ reads, rd.chunkRows ≤ chunkSize := by
  intro todo
  induction todo with
  | zero =>
    intro chunkIdx memSel column trace out reads htrace hrun
    simp only [columnLoop] at hrun
    injection hrun with h
    injection h with _ h2
    subst h2
    exact htrace
  | succ todo ih =>
    intro chunkIdx memSel column trace out reads htrace hrun
    rw [columnLoop_step] at hrun
    cases hread : readInto s column (columnStart firstRow chunkSize chunkIdx)
        (columnStart firstRow chunkSize chunkIdx)
        (columnRows firstRow nRows chunkSize chunkIdx) colIdx 1 with
    | fault f =>
      rw [hread] at hrun
      cases hrun
    | ok out2 =>
      rw [hread] at hrun
      simp only [] at hrun
      apply ih _ _ out2 _ out reads _ hrun
      intro rd hrd
      rcases List.mem_append.1 hrd with h | h
      · exact htrace rd h
      · rw [List.mem_singleton] at h
        subst h
        exact columnRows_le _ _ _ _

/-- C14: for a request with `firstRow < lastRow` (and `lastRow` an `int`), with
`std::size_t` arithmetic modulo `2 ^ 64`: the number of rows requested in any iteration
of the read loop, and so by every physical read of a returning call, is at most
`lastRow - firstRow + 1` and at most the chunk rows of a chunked store. -/
theorem ColumnValues_read_sizes {α : Type} (s : Store α) (zero : α) (colIdx firstRow : Nat)
    (lastRow : Int) (hlt : (firstRow : Int) < lastRow) (hint : lastRow < 2 ^ 31) :
    (∀ chunkIdx : Nat,
      ((columnRows firstRow (add64 (sub64 (toSize (resolveLastRow s lastRow)) firstRow) 1)
          (chunkSizeFor s (add64 (sub64 (toSize (resolveLastRow s lastRow)) firstRow) 1))
          chunkIdx : Nat) : Int) ≤ lastRow - firstRow + 1 ∧
      ∀ d, s.chunk = some d →
        columnRows firstRow (add64 (sub64 (toSize (resolveLastRow s lastRow)) firstRow) 1)
          (chunkSizeFor s (add64 (sub64 (toSize (resolveLastRow s lastRow)) firstRow) 1))
          chunkIdx ≤ d.1) ∧
    (∀ out reads, ColumnValuesTraced s zero colIdx firstRow lastRow = .ok (out, reads) →
      ∀ rd ∈ reads, (rd.chunkRows : Int) ≤ lastRow - firstRow + 1 ∧
        ∀ d, s.chunk = some d → rd.chunkRows ≤ d.1) := by
  have hres : resolveLastRow s lastRow = lastRow := by
    unfold resolveLastRow
    rw [if_neg (by omega)]
  have hsz : toSize lastRow = lastRow.toNat := by unfold toSize; omega
  have hn : add64 (sub64 (toSize (resolveLastRow s lastRow)) firstRow) 1
      = lastRow.toNat - firstRow + 1 := by
    rw [hres, hsz, sub64_eq (by omega) (by omega), add64_eq (by omega)]
  rw [hn]
  obtain ⟨hc1, hc2⟩ := chunkSizeFor_le s (lastRow.toNat - firstRow + 1)
  constructor
  · intro chunkIdx
    have := columnRows_le firstRow (lastRow.toNat - firstRow + 1)
      (chunkSizeFor s (lastRow.toNat - firstRow + 1)) chunkIdx
    refine ⟨by omega, fun d hd => ?_⟩
    have := hc2 d hd
    omega
  · intro out reads hrun rd hrd
    unfold ColumnValuesTraced at hrun
    simp only [hn] at hrun
    rw [hres, hsz, if_neg (by omega)] at hrun
    split at hrun
    · cases hrun
    · split at hrun
      · cases hrun
      · have := columnLoop_reads_le s colIdx firstRow _ _ _ _ _ _ [] out reads
          (by intro r hr; cases hr) hrun rd hrd
        refine ⟨by omega, fun d hd => ?_⟩
        have := hc2 d hd
        omega

/-- Witness for C14: rows 1 to 5 of column 1 of a 10 × 3 table in chunks of four rows;
the call returns after a read of four rows and a read of no rows. -/
theorem ColumnValues_read_sizes_witness :
    ColumnValuesTraced (sampleStore 10 3 (some (4, 3))) 0 1 1 5
      = .ok ([0, 111, 121, 131, 141], [⟨1, 4, 4⟩, ⟨5, 0, 0⟩]) ∧
    ∀ rd ∈ [(⟨1, 4, 4⟩ : ColRead), ⟨5, 0, 0⟩], (rd.chunkRows : Int) ≤ 5 - ((1 : Nat) : Int) + 1 ∧
      ∀ d, (sampleStore 10 3 (some (4, 3))).chunk = some d → rd.chunkRows ≤ d.1 :=
  ⟨by decide,
    (ColumnValues_read_sizes (sampleStore 10 3 (some (4, 3))) 0 1 1 5 (by decide) (by decide)).2
      [0, 111, 121, 131, 141] [⟨1, 4, 4⟩, ⟨5, 0, 0⟩] (by decide)⟩

/-! ## The full-column read -/

/-- One read of the full-column loop: the rows `[B, B + rows)` of column `colIdx` are
stored at index `B` of a column whose rows below `B` are in place. -/
theorem readInto_column {α : Type} (s : Store α) (column : List α) (colIdx nRows B rows : Nat)
    (hlen : column.length = nRows) (hfit : B + rows ≤ nRows) (hrows : nRows ≤ s.numRows)
    (hcol : colIdx < s.numCols)
    (hdone : ∀ i, i < B → i < nRows → column[i]? = some (s.cell i colIdx)) :
    ∃ out, readInto s column B B rows colIdx 1 = .ok out ∧ out.length = nRows ∧
      ∀ i, i < B + rows → i < nRows → out[i]? = some (s.cell i colIdx) := by
  by_cases h0 : rows = 0
  · subst h0
    refine ⟨column, ?_, hlen, fun i hi1 hi2 => hdone i (by omega) hi2⟩
    unfold readInto
    rw [if_pos (by simp)]
  · have hdl : (s.rect B rows colIdx 1).length = rows := by rw [s.rect_length]; omega
    have hfit2 : B + (s.rect B rows colIdx 1).length ≤ column.length := by rw [hdl]; omega
    refine ⟨writeAt column B (s.rect B rows colIdx 1), ?_, ?_, ?_⟩
    · unfold readInto
      rw [if_neg (by omega), if_neg (by simp; omega), if_neg (by omega)]
    · rw [writeAt_length _ _ _ hfit2]; exact hlen
    · intro i hi1 hi2
      by_cases hiB : i < B
      · rw [writeAt_getElem?_lt _ _ _ _ hfit2 hiB]
        exact hdone i hiB hi2
      · have hsplit : i = B + (i - B) := by omega
        have hp : i - B < rows * 1 := by omega
        rw [hsplit, writeAt_getElem?_mid _ _ _ _ hfit2 (by rw [hdl]; omega),
          s.rect_getElem? _ _ _ _ _ hp, Nat.div_one, Nat.mod_one, Nat.add_zero]

/-- The loop of `ColumnValues` for a request that starts at row 0: it returns, the column
holds the requested rows in order, and every read stores its rows inside the column. -/
theorem columnLoop_full {α : Type} (s : Store α) (colIdx nRows cs : Nat)
    (hcs : 0 < cs) (hn64 : nRows < 2 ^ 63) (hrows : nRows ≤ s.numRows)
    (hcol : colIdx < s.numCols) :
    ∀ (todo k memSel : Nat) (column : List α) (trace : List ColRead),
      k + todo = nRows / cs + 1 → column.length = nRows →
      (∀ i, i < k * cs → i < nRows → column[i]? = some (s.cell i colIdx)) →
      (∀ rd ∈ trace, rd.startRow + rd.chunkRows ≤ nRows) →
      ∃ out reads, columnLoop s colIdx 0 nRows cs todo k memSel column trace = .ok (out, reads) ∧
        out.length = nRows ∧ (∀ i, i < nRows → out[i]? = some (s.cell i colIdx)) ∧
        ∀ rd ∈ reads, rd.startRow + rd.chunkRows ≤ nRows := by
  have hq1 : nRows / cs * cs ≤ nRows := Nat.div_mul_le_self nRows cs
  have hq2 : nRows < nRows / cs * cs + cs := Nat.lt_div_mul_add hcs
  intro todo
  induction todo with
  | zero =>
    intro k memSel column trace hk hlen hdone htrace
    refine ⟨column, trace, rfl, hlen, ?_, htrace⟩
    intro i hi
    have hkq : k = nRows / cs + 1 := by omega
    have : k * cs = nRows / cs * cs + cs := by rw [hkq]; ring
    exact hdone i (by omega) hi
  | succ todo ih =>
    intro k memSel column trace hk hlen hdone htrace
    have hkq : k ≤ nRows / cs := by omega
    have hB : k * cs ≤ nRows / cs * cs := Nat.mul_le_mul_right _ hkq
    have hkB : k ≤ k * cs := Nat.le_mul_of_pos_right _ hcs
    have hstart : columnStart 0 cs k = k * cs := by
      unfold columnStart
      rw [mul64_eq (by omega), add64_eq (by omega), Nat.zero_add]
    have hrowsEq : columnRows 0 nRows cs k = min cs (nRows - k * cs) := by
      unfold columnRows
      rw [hstart, sub64_eq (by omega) (by omega)]
    rw [columnLoop_step, hstart, hrowsEq]
    obtain ⟨out2, hread, hlen2, hdone2⟩ := readInto_column s column colIdx nRows (k * cs)
      (min cs (nRows - k * cs)) hlen (by omega) hrows hcol hdone
    rw [hread]
    simp only []
    rw [add64_eq (by omega)]
    apply ih (k + 1) _ out2 _ (by omega) hlen2
    · intro i hi1 hi2
      have : (k + 1) * cs = k * cs + cs := by ring
      exact hdone2 i (by omega) hi2
    · intro rd hrd
      rcases List.mem_append.1 hrd with h | h
      · exact htrace rd h
      · rw [List.mem_singleton] at h
        subst h
        dsimp only
        omega

/-- The vector `ColumnValues` returns is the one of its traced run. -/
theorem ColumnValues_of_traced {α : Type} (s : Store α) (zero : α) (colIdx firstRow : Nat)
    (lastRow : Int) (out : List α) (reads : List ColRead)
    (h : ColumnValuesTraced s zero colIdx firstRow lastRow = .ok (out, reads)) :
    ColumnValues s zero colIdx firstRow lastRow = .ok out := by
  unfold ColumnValues
  rw [h]

/-- Two calls of `ColumnValues` whose `lastRow` resolves to the same value agree. -/
theorem ColumnValuesTraced_congr {α : Type} (s : Store α) (zero : α) (colIdx firstRow : Nat)
    (l1 l2 : Int) (h : resolveLastRow s l1 = resolveLastRow s l2) :
    ColumnValuesTraced s zero colIdx firstRow l1 = ColumnValuesTraced s zero colIdx firstRow l2 := by
  unfold ColumnValuesTraced
  rw [h]

/-- C17: the read that builds the event row map, `firstRow = 0` and `1 ≤ lastRow <
numRows`, of a valid column, for every store whose chunks (when the layout is chunked)
have at least one row and reach column `colIdx`, as they do when the table is chunked
along the row axis only: `ColumnValues` returns exactly `lastRow + 1` values, the `i`-th
being `table[i][colIdx]`, and every physical read stores its rows inside the output
(`startRow + chunkRows ≤ lastRow + 1`, `startRow` being the index it writes to).  When
`lastRow` is the last row of the table, the call with the defaulted arguments returns
the same values. -/
theorem ColumnValues_full_column {α : Type} (s : Store α) (zero : α) (colIdx lastRow : Nat)
    (hfirst : 1 ≤ lastRow) (hlast : lastRow < s.numRows) (hint : lastRow < 2 ^ 31)
    (hcol : colIdx < s.numCols)
    (hchunk : ∀ d, s.chunk = some d → 1 ≤ d.1 ∧ colIdx ≤ d.2) :
    ∃ out reads,
      ColumnValuesTraced s zero colIdx 0 (lastRow : Int) = .ok (out, reads) ∧
      ColumnValues s zero colIdx 0 (lastRow : Int) = .ok out ∧
      out.length = lastRow + 1 ∧
      (∀ i, i ≤ lastRow → out[i]? = some (s.cell i colIdx)) ∧
      (∀ rd ∈ reads, rd.startRow + rd.chunkRows ≤ lastRow + 1) ∧
      (s.numRows = lastRow + 1 →
        ColumnValues s zero colIdx defaultFirstRow defaultLastRow = .ok out) := by
  have hres : resolveLastRow s (lastRow : Int) = (lastRow : Int) := by
    unfold resolveLastRow
    rw [if_neg (by omega)]
  have hsz : toSize (lastRow : Int) = lastRow := toSize_natCast (by omega)
  have hn : add64 (sub64 lastRow 0) 1 = lastRow + 1 := by
    rw [sub64_eq (by omega) (by omega), add64_eq (by omega)]
    rfl
  obtain ⟨hcs1, hcs2⟩ := chunkSizeFor_bounds s (lastRow + 1) (by omega)
    (fun d hd => (hchunk d hd).1)
  have hassert : ¬ ((match s.chunk with
      | some d => decide (d.2 < colIdx)
      | none => false) = true) := by
    cases hc : s.chunk with
    | none => simp
    | some d =>
      have := (hchunk d hc).2
      simp only [decide_eq_true_eq]
      omega
  have hiter : add64 ((lastRow + 1) / chunkSizeFor s (lastRow + 1)) 1
      = (lastRow + 1) / chunkSizeFor s (lastRow + 1) + 1 := by
    apply add64_eq
    have := Nat.div_le_self (lastRow + 1) (chunkSizeFor s (lastRow + 1))
    omega
  obtain ⟨out, reads, hrun, hlen, hcells, hreads⟩ := columnLoop_full s colIdx (lastRow + 1)
    (chunkSizeFor s (lastRow + 1)) hcs1 (by omega) (by omega) hcol
    ((lastRow + 1) / chunkSizeFor s (lastRow + 1) + 1) 0 (chunkSizeFor s (lastRow + 1))
    (List.replicate (lastRow + 1) zero) [] (by omega) (List.length_replicate _ _)
    (by intro i hi; simp at hi) (by intro rd hrd; cases hrd)
  have htraced : ColumnValuesTraced s zero colIdx 0 (lastRow : Int) = .ok (out, reads) := by
    unfold ColumnValuesTraced
    simp only [hres, hsz, hn]
    rw [if_neg (by omega), if_neg hassert, if_neg (by omega), hiter]
    exact hrun
  refine ⟨out, reads, htraced, ?_, hlen, fun i hi => hcells i (by omega), hreads, ?_⟩
  · exact ColumnValues_of_traced s zero colIdx 0 (lastRow : Int) out reads htraced
  · intro hall
    have hdef : resolveLastRow s defaultLastRow = (lastRow : Int) := by
      unfold resolveLastRow defaultLastRow
      rw [if_pos (by decide), hall, sub64_eq (by omega) (by omega), Nat.add_sub_cancel,
        toInt32_eq hint]
    have hsame : ColumnValuesTraced s zero colIdx defaultFirstRow defaultLastRow
        = ColumnValuesTraced s zero colIdx 0 (lastRow : Int) :=
      ColumnValuesTraced_congr s zero colIdx 0 defaultLastRow (lastRow : Int)
        (hdef.trans hres.symm)
    exact ColumnValues_of_traced s zero colIdx defaultFirstRow defaultLastRow out reads
      (hsame.trans htraced)

/-- Witness for C17: column 1 of a 6 × 3 table in chunks of two rows, read to row 5. -/
theorem ColumnValues_full_column_witness :
    ∃ out reads,
      ColumnValuesTraced (sampleStore 6 3 (some (2, 3))) 0 1 0 ((5 : Nat) : Int)
        = .ok (out, reads) ∧
      ColumnValues (sampleStore 6 3 (some (2, 3))) 0 1 0 ((5 : Nat) : Int) = .ok out ∧
      out.length = 5 + 1 ∧
      (∀ i, i ≤ 5 → out[i]? = some ((sampleStore 6 3 (some (2, 3))).cell i 1)) ∧
      (∀ rd ∈ reads, rd.startRow + rd.chunkRows ≤ 5 + 1) ∧
      ((sampleStore 6 3 (some (2, 3))).numRows = 5 + 1 →
        ColumnValues (sampleStore 6 3 (some (2, 3))) 0 1 defaultFirstRow defaultLastRow
          = .ok out) :=
  ColumnValues_full_column (sampleStore 6 3 (some (2, 3))) 0 1 5 (by decide) (by decide)
    (by decide) (by decide) (by intro d hd; cases hd; decide)

end cafmaker
